import Mathlib

/-!
# Verification of the n8n-style workflow dashboard execution engine

This file gives a shallow embedding, in Lean 4, of the workflow execution
engine of the Vue workflow-dashboard repository, and proves (or refutes)
the frozen specification claims about it.

The embedded functions follow the TypeScript source:

* `getExecutionOrder`, `executeWorkflowNow`, `runWorkflow` and the
  schedule guard from `src/components/WorkFlowEditor.vue` (the current
  revision of that component, which imports its node execution from
  `nodeService`, and the older revision that keeps a local `executeNode`
  with synthetic durations);
* `executeNode`, `generateExecutableCode`, `getScheduleIntervalMs` from
  `src/services/nodeService.ts`;
* `isValidNodeData` / `handleImport` from the import path of
  `WorkFlowEditor.vue`;
* the execution-log store shape from `src/stores/executionLog.ts`.

JavaScript dynamic evaluation (`new Function`, `fetch`, `JSON.parse`) is
modelled by an explicit oracle so that the control flow around it — which
is what the claims are about — is embedded exactly.
-/

namespace WorkflowDash

/-! ## Graph data model (`stores/workflow.ts`)

`WorkflowNodeState` carries `id`, optional `label` and a `data` record;
`WorkflowEdgeState` carries `id`, `source`, `target`.  For the scheduler
only `id`/`label` of nodes and `source`/`target` of edges matter; the
`data` record is modelled later (as a JS-value record) for execution. -/

structure WFEdge where
  id : String
  source : String
  target : String
  deriving Repr, DecidableEq

/-- JSON-like JavaScript values, used for node `data` records and
`userInput` mappings. -/
inductive JValue where
  | str (s : String)
  | num (n : Int)
  | bool (b : Bool)
  | null
  | arr (xs : List JValue)
  | obj (fields : List (String × JValue))
  deriving Repr

/-- A workflow node as stored in the workflow store: `id`, an optional
top-level `label`, and the `data` record (an object of JS values). -/
structure WFNode where
  id : String
  label : Option String
  data : List (String × JValue)

def nodeIds (nodes : List WFNode) : List String := nodes.map (·.id)

/-- `byId.has` in `getExecutionOrder`: some node carries this id. -/
def hasNodeId (nodes : List WFNode) (i : String) : Bool :=
  nodes.any (fun n => n.id = i)

/-- The edges actually used by the scheduler: edges whose `source` and
`target` both reference existing nodes (`if (!byId.has(e.source) ||
!byId.has(e.target)) return`). -/
def validEdges (nodes : List WFNode) (edges : List WFEdge) : List WFEdge :=
  edges.filter (fun e => hasNodeId nodes e.source && hasNodeId nodes e.target)

/-- `targetsBySource.get(id) ?? []`: the targets of the valid edges out of
`id`, in edge-list order. -/
def succList (vE : List WFEdge) (i : String) : List String :=
  (vE.filter (fun e => e.source = i)).map (·.target)

/-- The in-degree map built from the valid edges (`inDegree.set(e.target,
(inDegree.get(e.target) ?? 0) + 1)`), as an integer since the loop
decrements JS numbers below zero freely. -/
def indeg0 (vE : List WFEdge) (i : String) : Int :=
  ((vE.filter (fun e => e.target = i)).length : Int)

/-- `byId.get(id)`: a JS `Map` built from the node list keeps the last
entry for a duplicated key, which the fold reproduces. -/
def byId (nodes : List WFNode) (i : String) : Option WFNode :=
  nodes.foldl (fun acc n => if n.id = i then some n else acc) none

/-- The record pushed to the order: `{id: node.id, label: node.label ??
(node.data?.label as string) ?? 'Node'}`.  (A non-string `data.label` is
collapsed to `'Node'` here; the claims do not depend on labels.) -/
structure ONode where
  id : String
  label : String
  deriving Repr, DecidableEq

def resolveLabel (n : WFNode) : String :=
  match n.label with
  | some s => s
  | none =>
    match n.data.lookup "label" with
    | some (JValue.str s) => s
    | _ => "Node"

/-- The order entry appended for a popped queue id (`const node =
byId.get(id); if (node) order.push({...})`). -/
def emit (nodes : List WFNode) (i : String) : List ONode :=
  match byId nodes i with
  | some n => [⟨n.id, resolveLabel n⟩]
  | none => []

/-- The inner `forEach` over `targetsBySource.get(id)`: decrement each
successor's in-degree and enqueue it (at the back) when it reaches 0. -/
def processSuccs : List String → (String → Int) → List String → ((String → Int) × List String)
  | [], deg, q => (deg, q)
  | t :: rest, deg, q =>
    let d := deg t - 1
    processSuccs rest (fun x => if x = t then d else deg x)
      (if d = 0 then q ++ [t] else q)

/-- The `while (queue.length > 0)` loop of `getExecutionOrder`, with a
fuel bound for termination.  Besides the order — the only thing the
source returns — the final queue and degree map are kept so that the
invariants can speak about the final state. -/
def kahnRun (nodes : List WFNode) (vE : List WFEdge) :
    Nat → List String → (String → Int) → List ONode →
    (List ONode × List String × (String → Int))
  | 0, q, deg, ord => (ord, q, deg)
  | _ + 1, [], deg, ord => (ord, [], deg)
  | fuel + 1, i :: rest, deg, ord =>
    let ord' := ord ++ emit nodes i
    let p := processSuccs (succList vE i) deg rest
    kahnRun nodes vE fuel p.2 p.1 ord'

/-- The seed queue: all nodes whose in-degree is zero, in original
node-list order. -/
def seedIds (nodes : List WFNode) (edges : List WFEdge) : List String :=
  (nodes.filter (fun n => indeg0 (validEdges nodes edges) n.id = 0)).map (·.id)

/-- `getExecutionOrder` from `WorkFlowEditor.vue` (identical in both
revisions of the component): Kahn's algorithm with a FIFO queue seeded in
node-list order, dropping edges with missing endpoints, silently omitting
nodes that never reach in-degree zero. -/
def getExecutionOrder (nodes : List WFNode) (edges : List WFEdge) : List ONode :=
  if nodes.isEmpty then []
  else
    let vE := validEdges nodes edges
    (kahnRun nodes vE (nodes.length + edges.length + 1)
      (seedIds nodes edges) (indeg0 vE) []).1

/-- One step of the edge relation restricted to valid edges: there is a
kept edge from `a` to `b`. -/
def edgeStep (vE : List WFEdge) (a b : String) : Prop :=
  ∃ e ∈ vE, e.source = a ∧ e.target = b

/-- The number of valid edges into `t` whose source has not yet been
emitted to the order `O`; the loop's in-degree map always holds exactly
this value for every id. -/
def cnt (vE : List WFEdge) (O : List String) (t : String) : Nat :=
  vE.countP (fun e => decide (e.target = t ∧ e.source ∉ O))

/-! ## JavaScript value helpers

The node `data` records, `userInput` mappings and entry outputs are JS
objects; `JValue` models them.  The helpers below model the JS coercions
the source relies on: property access, `??` (nullish coalescing),
`String(...)`, truthiness, `Number(...)`, and `JSON.stringify`. -/

/-- Property access `obj[key]` (our objects carry unique keys, so
first-match lookup coincides with JS object semantics). -/
def jlookup (fields : List (String × JValue)) (k : String) : Option JValue :=
  fields.lookup k

/-- Collapses `null` to "absent" so that `a ?? b` chains can be modelled
with `Option`: both `undefined` and `null` fall through `??`. -/
def undef : Option JValue → Option JValue
  | some JValue.null => none
  | v => v

/-- JS `String(v)` coercion. -/
def jsToString : JValue → String
  | .str s => s
  | .num n => toString n
  | .bool b => if b then "true" else "false"
  | .null => "null"
  | .arr xs => String.intercalate "," (xs.attach.map (fun x => jsToString x.1))
  | .obj _ => "[object Object]"
decreasing_by
  simp_wf
  have := List.sizeOf_lt_of_mem x.2
  omega

/-- JS truthiness. -/
def jsTruthy : JValue → Bool
  | .str s => s ≠ ""
  | .num n => n ≠ 0
  | .bool b => b
  | .null => false
  | .arr _ => true
  | .obj _ => true

/-- `v === s` for a string literal `s`. -/
def jEqStr (v : JValue) (s : String) : Bool :=
  match v with
  | .str t => t = s
  | _ => false

/-- `String(a ?? dflt)` (the default is itself a string literal in the
source, so stringifying it is the identity). -/
def strOr1 (a : Option JValue) (dflt : String) : String :=
  match undef a with
  | some v => jsToString v
  | none => dflt

/-- `String(a ?? b ?? '')`. -/
def strOr2 (a b : Option JValue) : String :=
  match undef a with
  | some v => jsToString v
  | none => strOr1 b ""

/-- JSON string escaping (the common escapes; control characters beyond
these do not occur in the embedded claims). -/
def jsonEscapeChar (c : Char) : String :=
  if c = '"' then "\\\""
  else if c = '\\' then "\\\\"
  else if c = '\n' then "\\n"
  else if c = '\r' then "\\r"
  else if c = '\t' then "\\t"
  else String.singleton c

def jsonQuote (s : String) : String :=
  "\"" ++ String.join (s.toList.map jsonEscapeChar) ++ "\""

/-- `JSON.stringify`. -/
def jStringify : JValue → String
  | .str s => jsonQuote s
  | .num n => toString n
  | .bool b => if b then "true" else "false"
  | .null => "null"
  | .arr xs =>
    "[" ++ String.intercalate "," (xs.attach.map (fun x => jStringify x.1)) ++ "]"
  | .obj fs =>
    "\x7b" ++ String.intercalate ","
      (fs.attach.map (fun kv => jsonQuote kv.1.1 ++ ":" ++ jStringify kv.1.2)) ++
      "\x7d"
decreasing_by
  · simp_wf
    have := List.sizeOf_lt_of_mem x.2
    omega
  · simp_wf
    obtain ⟨⟨k, v⟩, hmem⟩ := kv
    have := List.sizeOf_lt_of_mem hmem
    simp at this ⊢
    omega

/-- JS `Number(v)`, `none` standing for `NaN` (approximated: numeric
strings and primitives; objects give `NaN`). -/
def jsToNumber : JValue → Option Int
  | .num n => some n
  | .str s => if s = "" then some 0 else s.toInt?
  | .bool b => some (if b then 1 else 0)
  | .null => some 0
  | .arr _ => none
  | .obj _ => none

/-- `Number(a ?? 1) || 1` as used for `INTERVAL_BETWEEN_TRIGGER`. -/
def numOr1 (a : Option JValue) : Int :=
  match undef a with
  | none => 1
  | some v =>
    match jsToNumber v with
    | some n => if n = 0 then 1 else n
    | none => 1

/-! ## Action dispatcher (`services/nodeService.ts`)

`new Function`/`fetch`/`JSON.parse`/`response.json()` are dynamic
evaluation; they are supplied as an oracle.  A `thrown` result carries
the already-stringified error (`String(error)`). -/

inductive EvalResult where
  | ok (v : JValue)
  | thrown (msg : String)

structure JsOracle where
  /-- `new Function(code)()` — also used for the `return (expr)` wrappers. -/
  call : String → EvalResult
  /-- console lines captured while `call code` ran (the `console.*`
  override in the `RUN_CODE` branch). -/
  callLogs : String → List String
  /-- `await new Function('fetch', 'return (' + code + ')')(fetch)`. -/
  fetchCall : String → EvalResult
  /-- `await response.json()` when the response is truthy and exposes a
  `json` function and decoding succeeds; `none` falls back to the raw
  response (the inner `try`/`catch`). -/
  json : JValue → Option JValue
  /-- `JSON.parse`; `none` when it throws. -/
  jsonParse : String → Option JValue

/-! `nodeActionType` from `components/constants.ts`. -/

namespace nodeActionType

def COMPUTATION : String := "computation"

def API_CALL : String := "api_call"

def RUN_CODE : String := "run_code"

def SCHEDULE_TRIGGER : String := "schedule_trigger"

def MANUAL_TRIGGER : String := "manual_trigger"

end nodeActionType

inductive ExecStatus where
  | success
  | error
  deriving Repr, DecidableEq

structure NodeExecutionResult where
  output : List (String × JValue)
  status : ExecStatus
  deriving Repr

/-- `(nodeData.userInput as Record<string, unknown>) ?? {}` (a non-object
value would have no string-keyed properties, hence the empty record). -/
def userInputOf (nodeData : List (String × JValue)) : List (String × JValue) :=
  match undef (jlookup nodeData "userInput") with
  | some (JValue.obj fs) => fs
  | _ => []

/-- `(nodeData.actionType as string | undefined) ?? ''`. -/
def actionTypeOf (nodeData : List (String × JValue)) : JValue :=
  (undef (jlookup nodeData "actionType")).getD (JValue.str "")

/-- The `RUN_CODE` script:
`String(nodeData[nodeActionType.RUN_CODE] ?? userInput['JAVASCRIPT_CODE'] ?? '')`. -/
def runCodeOf (nodeData u : List (String × JValue)) : String :=
  strOr2 (jlookup nodeData nodeActionType.RUN_CODE) (jlookup u "JAVASCRIPT_CODE")

/-- The `COMPUTATION` expression:
`String(nodeData[nodeActionType.COMPUTATION] ?? userInput['EXPRESSION_CODE'] ?? '')`. -/
def computationExprOf (nodeData u : List (String × JValue)) : String :=
  strOr2 (jlookup nodeData nodeActionType.COMPUTATION) (jlookup u "EXPRESSION_CODE")

/-- The fallback `fetch` code built inside `executeNode`'s `API_CALL`
branch when no stored code exists — note it reads `BODY` and emits a
`body:` property whatever the method is. -/
def buildFetchCodeFromInput (jsonParse : String → Option JValue)
    (u : List (String × JValue)) : String :=
  let url := strOr1 (jlookup u "URL") ""
  let method := strOr1 (jlookup u "METHOD") "GET"
  let headersRaw := strOr1 (jlookup u "HEADERS") ""
  let bodyRaw := strOr1 (jlookup u "BODY") ""
  let headersObj :=
    if headersRaw = "" then JValue.obj []
    else
      match jsonParse headersRaw with
      | some v => v
      | none => JValue.obj []
  let headersJson := jStringify headersObj
  let bodyExpr := if bodyRaw = "" then "undefined" else jStringify (JValue.str bodyRaw)
  "fetch(" ++ jStringify (JValue.str url) ++ ", \x7b method: " ++
    jStringify (JValue.str method) ++ ", headers: " ++ headersJson ++
    ", body: " ++ bodyExpr ++ " \x7d)"

/-- The code value the `API_CALL` branch of `executeNode` dispatches:
`String(nodeData[nodeActionType.API_CALL] ?? '')`, falling back to the
built fetch call when empty. -/
def apiDispatchCode (jsonParse : String → Option JValue)
    (nodeData : List (String × JValue)) : String :=
  let code := strOr1 (jlookup nodeData nodeActionType.API_CALL) ""
  if code = "" then buildFetchCodeFromInput jsonParse (userInputOf nodeData)
  else code

/-- `executeNode` from `services/nodeService.ts`: dispatch on
`actionType`, with the whole body wrapped in `try`/`catch` turning any
thrown error into `{error: String(error)}` with status `error`.
(A `consoleOutput` key set to `undefined` in JS is modelled as the key
being absent.) -/
def executeNode (or : JsOracle) (nodeData : List (String × JValue)) :
    NodeExecutionResult :=
  if jEqStr (actionTypeOf nodeData) nodeActionType.RUN_CODE then
    match or.call (runCodeOf nodeData (userInputOf nodeData)) with
    | .thrown m => ⟨[("error", JValue.str m)], .error⟩
    | .ok v =>
      let logs := or.callLogs (runCodeOf nodeData (userInputOf nodeData))
      ⟨[("returnedValue", v)] ++
        (if logs.isEmpty then []
         else [("consoleOutput", JValue.arr (logs.map JValue.str))]), .success⟩
  else if jEqStr (actionTypeOf nodeData) nodeActionType.API_CALL then
    match or.fetchCall (apiDispatchCode or.jsonParse nodeData) with
    | .thrown m => ⟨[("error", JValue.str m)], .error⟩
    | .ok resp => ⟨[("response", (or.json resp).getD resp)], .success⟩
  else if jEqStr (actionTypeOf nodeData) nodeActionType.COMPUTATION then
    match or.call ("return (" ++ computationExprOf nodeData (userInputOf nodeData) ++ ")") with
    | .thrown m => ⟨[("error", JValue.str m)], .error⟩
    | .ok v => ⟨[("result", v)], .success⟩
  else if jEqStr (actionTypeOf nodeData) nodeActionType.MANUAL_TRIGGER ||
      jEqStr (actionTypeOf nodeData) nodeActionType.SCHEDULE_TRIGGER then
    ⟨[("trigger", actionTypeOf nodeData)], .success⟩
  else
    ⟨[("result", JValue.str "No executable action")], .success⟩

/-- The evaluation outcome the dispatcher observes for a node — `none`
when the branch performs no dynamic evaluation (triggers, unknown
kinds). -/
def dispatchOutcome (or : JsOracle) (nodeData : List (String × JValue)) :
    Option EvalResult :=
  if jEqStr (actionTypeOf nodeData) nodeActionType.RUN_CODE then
    some (or.call (runCodeOf nodeData (userInputOf nodeData)))
  else if jEqStr (actionTypeOf nodeData) nodeActionType.API_CALL then
    some (or.fetchCall (apiDispatchCode or.jsonParse nodeData))
  else if jEqStr (actionTypeOf nodeData) nodeActionType.COMPUTATION then
    some (or.call ("return (" ++ computationExprOf nodeData (userInputOf nodeData) ++ ")"))
  else none

/-- `generateExecutableCode` from `services/nodeService.ts`.  Unlike the
`executeNode` fallback, its `API_CALL` case omits the `body:` property
entirely when the method is `GET` ("GET requests should not have a
body"). -/
def generateExecutableCode (jsonParse : String → Option JValue)
    (actionType : String) (userInput : List (String × JValue)) : String :=
  if actionType = nodeActionType.RUN_CODE then
    strOr1 (jlookup userInput "JAVASCRIPT_CODE") ""
  else if actionType = nodeActionType.API_CALL then
    let url := strOr1 (jlookup userInput "URL") ""
    let method := strOr1 (jlookup userInput "METHOD") "GET"
    let headersRaw := strOr1 (jlookup userInput "HEADERS") ""
    let headersObj :=
      if headersRaw = "" then JValue.obj []
      else
        match jsonParse headersRaw with
        | some v => v
        | none => JValue.obj []
    let headersJson := jStringify headersObj
    if method = "GET" then
      "fetch(" ++ jStringify (JValue.str url) ++ ", \x7b method: " ++
        jStringify (JValue.str method) ++ ", headers: " ++ headersJson ++ " \x7d)"
    else
      let bodyRaw := strOr1 (jlookup userInput "BODY") ""
      let bodyExpr := if bodyRaw = "" then "undefined" else jStringify (JValue.str bodyRaw)
      "fetch(" ++ jStringify (JValue.str url) ++ ", \x7b method: " ++
        jStringify (JValue.str method) ++ ", headers: " ++ headersJson ++
        ", body: " ++ bodyExpr ++ " \x7d)"
  else if actionType = nodeActionType.COMPUTATION then
    strOr1 (jlookup userInput "EXPRESSION_CODE") ""
  else ""

/-! ## Full-workflow run (`WorkFlowEditor.vue`, current revision)

`executeWorkflowNow` iterates the topological order; muted nodes get a
synthetic skipped entry without dispatching; per-node durations are
wall-clock (`Date.now()` deltas), supplied by the `dur` oracle per order
position.  Besides the entries and the error flag, the embedding also
returns the list of node ids actually given to the dispatcher, so that
"without invoking the Action Dispatcher" is observable. -/

inductive EntryStatus where
  | success
  | error
  | skipped
  deriving Repr, DecidableEq

def ExecStatus.toEntry : ExecStatus → EntryStatus
  | .success => EntryStatus.success
  | .error => EntryStatus.error

structure ExecEntry where
  id : String
  nodeId : String
  nodeName : String
  input : List (String × JValue)
  output : List (String × JValue)
  durationMs : Nat
  status : EntryStatus

/-- One execution record (`executedAtFormatted`, a locale-formatted
timestamp string, is pure presentation and omitted). -/
structure Execution where
  id : String
  startedAt : Nat
  durationMs : Nat
  status : ExecStatus
  triggerDescription : String
  entries : List ExecEntry

/-- `config.muted === true`. -/
def mutedOf (config : List (String × JValue)) : Bool :=
  match jlookup config "muted" with
  | some (JValue.bool true) => true
  | _ => false

/-- `nodesById.get(node.id)?.data ?? {}`. -/
def configOf (nodes : List WFNode) (i : String) : List (String × JValue) :=
  match byId nodes i with
  | some n => n.data
  | none => []

/-- The synthetic entry for a muted node. -/
def skippedEntry (startedAt : Nat) (node : ONode)
    (config : List (String × JValue)) : ExecEntry :=
  ⟨"entry-" ++ node.id ++ "-" ++ toString startedAt, node.id, node.label,
    config, [("skipped", JValue.bool true), ("reason", JValue.str "Node is disabled")],
    0, .skipped⟩

/-- The loop body of `executeWorkflowNow` over the order, threading the
position (for the duration oracle), the error flag and the dispatched
ids. -/
def runEntriesAux (or : JsOracle) (dur : Nat → Nat) (startedAt : Nat)
    (nodes : List WFNode) :
    List ONode → Nat → (List ExecEntry × Bool × List String)
  | [], _ => ([], false, [])
  | node :: rest, idx =>
    let config := configOf nodes node.id
    if mutedOf config then
      let r := runEntriesAux or dur startedAt nodes rest (idx + 1)
      (skippedEntry startedAt node config :: r.1, r.2.1, r.2.2)
    else
      let found := (byId nodes node.id).isSome
      let res :=
        if found then executeNode or config
        else ⟨[("error", JValue.str "Node not found")], ExecStatus.error⟩
      let entry : ExecEntry :=
        ⟨"entry-" ++ node.id ++ "-" ++ toString startedAt, node.id, node.label,
          config, res.output, dur idx, res.status.toEntry⟩
      let r := runEntriesAux or dur startedAt nodes rest (idx + 1)
      (entry :: r.1, (res.status = ExecStatus.error) || r.2.1,
        (if found then [node.id] else []) ++ r.2.2)

/-- Entries, error flag and dispatched ids of a full run. -/
def executeWorkflowNowData (or : JsOracle) (dur : Nat → Nat) (startedAt : Nat)
    (nodes : List WFNode) (edges : List WFEdge) :
    (List ExecEntry × Bool × List String) :=
  runEntriesAux or dur startedAt nodes (getExecutionOrder nodes edges) 0

/-! ## Execution log store (`stores/executionLog.ts`) and engine state -/

structure EngineState where
  execution : Option Execution
  selectedEntryId : Option String
  notification : Option (String × String)
  scheduleArmed : Bool

def clearExecution (s : EngineState) : EngineState :=
  { s with execution := none, selectedEntryId := none }

def setExecution (s : EngineState) (e : Execution) : EngineState :=
  { s with
    execution := some e
    selectedEntryId := (e.entries.head?.map (·.id)) }

def setNotification (s : EngineState) (kind msg : String) : EngineState :=
  { s with notification := some (kind, msg) }

def clearNotification (s : EngineState) : EngineState :=
  { s with notification := none }

def clearSchedule (s : EngineState) : EngineState :=
  { s with scheduleArmed := false }

/-- The error notification: the first error entry's `output.error` if it
is truthy, else the generic fallback. -/
def errorNotificationMsg (entries : List ExecEntry) : String :=
  match entries.find? (fun e => decide (e.status = EntryStatus.error)) with
  | none => "Execution failed for one or more nodes."
  | some e =>
    match jlookup e.output "error" with
    | some v => if jsTruthy v then jsToString v else "Execution failed for one or more nodes."
    | none => "Execution failed for one or more nodes."

/-- `executeWorkflowNow`: empty order returns without touching state;
otherwise the previous execution is cleared, entries are collected, the
execution (status `error` iff some entry errored) is stored, and a
notification is raised. -/
def executeWorkflowNow (or : JsOracle) (dur : Nat → Nat)
    (startedAt totalDur : Nat) (nodes : List WFNode) (edges : List WFEdge)
    (s : EngineState) : EngineState :=
  let order := getExecutionOrder nodes edges
  if order.isEmpty then s
  else
    let s1 := clearExecution s
    let r := executeWorkflowNowData or dur startedAt nodes edges
    let exec : Execution :=
      ⟨"exec-" ++ toString startedAt, startedAt, totalDur,
        (if r.2.1 then ExecStatus.error else ExecStatus.success),
        "When clicking \x27Execute workflow\x27", r.1⟩
    let s2 := setExecution s1 exec
    if r.2.1 then setNotification s2 "error" (errorNotificationMsg r.1)
    else setNotification s2 "success" "Execution completed successfully."

/-! ## Trigger controller (`runWorkflow` and the schedule) -/

/-- `n.data?.isTrigger === true`. -/
def isTriggerNodeData (n : WFNode) : Bool :=
  match jlookup n.data "isTrigger" with
  | some (JValue.bool true) => true
  | _ => false

/-- The node's top-level label, falling back to `data.label`
(`(triggerNodeData?.label ?? triggerNodeData?.data?.label)`); a
non-string `data.label` yields no label here. -/
def triggerLabelOf (n : WFNode) : Option String :=
  match n.label with
  | some s => some s
  | none =>
    match jlookup n.data "label" with
    | some (JValue.str s) => some s
    | _ => none

/-- `data.actionType || (label === 'Schedule Trigger' ? ... : ...)`:
a truthy `actionType` wins, else the label decides. -/
def triggerActionTypeOf (n : WFNode) : JValue :=
  let fromData := (undef (jlookup n.data "actionType")).getD JValue.null
  if jsTruthy fromData then fromData
  else
    match triggerLabelOf n with
    | some "Schedule Trigger" => JValue.str nodeActionType.SCHEDULE_TRIGGER
    | some "Manual Trigger" => JValue.str nodeActionType.MANUAL_TRIGGER
    | _ => JValue.str ""

/-- `getScheduleIntervalMs` from `services/nodeService.ts`. -/
def getScheduleIntervalMs (triggerOn : String) (between : Int) : Int :=
  let unitMs : Int :=
    if triggerOn = "sec" then 1000
    else if triggerOn = "min" then 60 * 1000
    else if triggerOn = "hour" then 60 * 60 * 1000
    else if triggerOn = "day" then 24 * 60 * 60 * 1000
    else if triggerOn = "week" then 7 * 24 * 60 * 60 * 1000
    else if triggerOn = "month" then 30 * 24 * 60 * 60 * 1000
    else 60 * 1000
  max 1 between * unitMs

/-- `const userInput = (data.userInput as Record<string, unknown>) ?? data`. -/
def scheduleConfigOf (data : List (String × JValue)) : List (String × JValue) :=
  match undef (jlookup data "userInput") with
  | some (JValue.obj fs) => fs
  | some _ => []
  | none => data

/-- `runWorkflow`: clear state and any armed schedule; an empty order or
the absence of a trigger node raises the validation error and stops; a
manual trigger runs immediately; a schedule trigger arms the schedule
(running immediately only when the first delay is within a second);
any other trigger kind falls through to an immediate run.
`firstRunMs` stands for the clock-dependent `msUntilTime` result. -/
def runWorkflow (or : JsOracle) (dur : Nat → Nat)
    (startedAt totalDur firstRunMs : Nat)
    (nodes : List WFNode) (edges : List WFEdge) (s : EngineState) : EngineState :=
  let s1 := clearSchedule (clearNotification (clearExecution s))
  let order := getExecutionOrder nodes edges
  if order.isEmpty then
    setNotification s1 "error" "Trigger node is required"
  else if !(nodes.any isTriggerNodeData) then
    setNotification s1 "error" "Trigger node is required"
  else
    match nodes.find? isTriggerNodeData with
    | none =>
      executeWorkflowNow or dur startedAt totalDur nodes edges s1
    | some tn =>
      let aty := triggerActionTypeOf tn
      if jEqStr aty nodeActionType.MANUAL_TRIGGER then
        executeWorkflowNow or dur startedAt totalDur nodes edges s1
      else if jEqStr aty nodeActionType.SCHEDULE_TRIGGER then
        let u := scheduleConfigOf tn.data
        let triggerOn := strOr1 (jlookup u "TRIGGER_ON") "min"
        let between := numOr1 (jlookup u "INTERVAL_BETWEEN_TRIGGER")
        let _intervalMs := getScheduleIntervalMs triggerOn between
        let s2 := { s1 with scheduleArmed := true }
        if firstRunMs ≤ 1000 then
          executeWorkflowNow or dur startedAt totalDur nodes edges s2
        else s2
      else
        executeWorkflowNow or dur startedAt totalDur nodes edges s1

/-! ## The scheduled-tick re-entrancy guard

`runScheduled` in `runWorkflow` is
`if (isExecuting) return; isExecuting = true; await executeWorkflowNow();
isExecuting = false` — in the single-threaded event loop the guard check
and set are atomic.  The state machine below mirrors it; `runsInFlight`
instruments how many runs are simultaneously executing, and the `Bool`
returned by a tick reports whether the tick started a run.  Both the
repeating interval and the first-fire timeout invoke the same
`runScheduled`, so both are `tick` events. -/

structure SchedGuardState where
  isExecuting : Bool
  runsInFlight : Nat
  deriving Repr, DecidableEq

/-- A timer tick firing `runScheduled`. -/
def runScheduledTick (s : SchedGuardState) : SchedGuardState × Bool :=
  if s.isExecuting then (s, false)
  else ({ isExecuting := true, runsInFlight := s.runsInFlight + 1 }, true)

inductive SchedEvent where
  | tick
  | finish

/-- Applying an event: a tick runs the guard; a finish (the `await`
completing) clears the flag of the one running run. -/
def schedApply (s : SchedGuardState) : SchedEvent → SchedGuardState
  | .tick => (runScheduledTick s).1
  | .finish =>
    if s.runsInFlight = 0 then s
    else { isExecuting := false, runsInFlight := s.runsInFlight - 1 }

/-- The state reached from idle by a sequence of timer/completion
events. -/
def schedRun (events : List SchedEvent) : SchedGuardState :=
  events.foldl schedApply ⟨false, 0⟩

/-! ## JSON import (`WorkFlowEditor.vue`) -/

/-- `isValidNodeData`: an object with a non-empty string `label` and an
object `data` holding a string `label`, a string `actionType` and an
object `userInput` (a JS array also has `typeof 'object'`, hence the
`arr` case for `userInput`; for the node or `data` themselves an array
has no string properties so the inner checks fail). -/
def isValidNodeData (v : JValue) : Bool :=
  match v with
  | .obj fields =>
    (match jlookup fields "label" with
     | some (JValue.str s) => s ≠ ""
     | _ => false) &&
    (match jlookup fields "data" with
     | some (JValue.obj dataFields) =>
       (match jlookup dataFields "label" with
        | some (JValue.str _) => true
        | _ => false) &&
       (match jlookup dataFields "actionType" with
        | some (JValue.str _) => true
        | _ => false) &&
       (match jlookup dataFields "userInput" with
        | some (JValue.obj _) => true
        | some (JValue.arr _) => true
        | _ => false)
     | _ => false)
  | _ => false

/-- The node batch extracted from the parsed JSON: `{nodes: [...]}`,
a bare array, or a single node object. -/
def nodesToImport (parsed : JValue) : List JValue :=
  match parsed with
  | .obj fields =>
    match jlookup fields "nodes" with
    | some (JValue.arr xs) => xs
    | _ => []
  | .arr xs => xs
  | v => [v]

def edgesToImport (parsed : JValue) : List JValue :=
  match parsed with
  | .obj fields =>
    match jlookup fields "edges" with
    | some (JValue.arr xs) => xs
    | _ => []
  | _ => []

/-- Structural equality of JS values (`Map` key identity for the
old-id → new-id mapping). -/
def jvalEq : JValue → JValue → Bool
  | .str a, .str b => a = b
  | .num a, .num b => a = b
  | .bool a, .bool b => a = b
  | .null, .null => true
  | .arr xs, .arr ys =>
    (match xs, ys with
     | [], [] => true
     | x :: xs, y :: ys => jvalEq x y && jvalEq (JValue.arr xs) (JValue.arr ys)
     | _, _ => false)
  | .obj xs, .obj ys =>
    (match xs, ys with
     | [], [] => true
     | (k1, v1) :: xs, (k2, v2) :: ys =>
       k1 = k2 && jvalEq v1 v2 && jvalEq (JValue.obj xs) (JValue.obj ys)
     | _, _ => false)
  | _, _ => false

/-- `Map.get` with last-set-wins semantics. -/
def mapLookup (m : List (JValue × String)) (k : JValue) : Option String :=
  ((m.reverse).find? (fun p => jvalEq p.1 k)).map (·.2)

/-- The node-adding loop of `handleImport`: regenerated ids, an
old-id → new-id mapping, `data` spread with the top-level label
overriding (`{ ...nodeData.data, label: nodeData.label }`; the override
is consed in front, first-match lookup makes it win). -/
def importNodes (now : Nat) : List JValue → Nat → (List WFNode × List (JValue × String))
  | [], _ => ([], [])
  | v :: rest, k =>
    let fields := match v with | JValue.obj fs => fs | _ => []
    let lbl := match jlookup fields "label" with | some (JValue.str s) => s | _ => ""
    let dataFields := match jlookup fields "data" with | some (JValue.obj ds) => ds | _ => []
    let oldId := (undef (jlookup fields "id")).getD (JValue.str ("temp-" ++ toString k))
    let newId := "node-" ++ toString now ++ "-" ++ toString k
    let node : WFNode := ⟨newId, some lbl, ("label", JValue.str lbl) :: dataFields⟩
    let r := importNodes now rest (k + 1)
    (node :: r.1, (oldId, newId) :: r.2)

/-- The edge-adding loop: remap through the id mapping, silently drop
edges with an unmapped endpoint; the counter only advances on added
edges. -/
def importEdges (mapping : List (JValue × String)) (now : Nat) :
    List JValue → Nat → List WFEdge
  | [], _ => []
  | v :: rest, m =>
    let fields := match v with | JValue.obj fs => fs | _ => []
    let src := (jlookup fields "source").getD JValue.null
    let tgt := (jlookup fields "target").getD JValue.null
    match mapLookup mapping src, mapLookup mapping tgt with
    | some ns, some nt =>
      ⟨"edge-" ++ toString now ++ "-" ++ toString m, ns, nt⟩ ::
        importEdges mapping now rest (m + 1)
    | _, _ => importEdges mapping now rest m

structure ImportOutcome where
  addedNodes : List WFNode
  addedEdges : List WFEdge
  notification : Option (String × String)

/-- `handleImport` after JSON parsing: validate the whole batch first;
any invalid node rejects the entire import with one validation error and
adds nothing; otherwise all nodes are added with fresh ids and edges are
remapped. -/
def handleImport (now : Nat) (parsed : JValue) : ImportOutcome :=
  let ns := nodesToImport parsed
  let es := edgesToImport parsed
  if (ns.filter (fun n => !isValidNodeData n)).length ≠ 0 then
    ⟨[], [], some ("error",
      "Invalid node format. Required: label, data.label, data.actionType, data.userInput")⟩
  else
    let r := importNodes now ns 0
    let added := importEdges r.2 now es 0
    let edgeMsg := if added.length > 0 then " and " ++ toString added.length ++ " edge(s)" else ""
    ⟨r.1, added, some ("success",
      "Imported " ++ toString r.1.length ++ " node(s)" ++ edgeMsg)⟩

/-! ## Older revision of `WorkFlowEditor.vue`

Its local `executeNode` reads the field values directly off `data`
(keys `'JavaScript Code'`, `'URL'`, `'Method'`, `'Headers'`, `'Body'`,
`'Expression Code'`), and its run loop has no muted check and assigns
every entry the synthetic duration `3 + (index % 7)`. -/

def buildFetchCodeEditor (jsonParse : String → Option JValue)
    (data : List (String × JValue)) : String :=
  let url := strOr1 (jlookup data "URL") ""
  let method := strOr1 (jlookup data "Method") "GET"
  let headersRaw := strOr1 (jlookup data "Headers") ""
  let bodyRaw := strOr1 (jlookup data "Body") ""
  let headersObj :=
    if headersRaw = "" then JValue.obj []
    else
      match jsonParse headersRaw with
      | some v => v
      | none => JValue.obj []
  let headersJson := jStringify headersObj
  let bodyExpr := if bodyRaw = "" then "undefined" else jStringify (JValue.str bodyRaw)
  "fetch(" ++ jStringify (JValue.str url) ++ ", \x7b method: " ++
    jStringify (JValue.str method) ++ ", headers: " ++ headersJson ++
    ", body: " ++ bodyExpr ++ " \x7d)"

def executeNodeEditor (or : JsOracle) (data : List (String × JValue)) :
    NodeExecutionResult :=
  let aty := actionTypeOf data
  if jEqStr aty nodeActionType.RUN_CODE then
    match or.call (strOr2 (jlookup data nodeActionType.RUN_CODE)
        (jlookup data "JavaScript Code")) with
    | .thrown m => ⟨[("error", JValue.str m)], .error⟩
    | .ok v => ⟨[("result", v)], .success⟩
  else if jEqStr aty nodeActionType.API_CALL then
    let code0 := strOr1 (jlookup data nodeActionType.API_CALL) ""
    let code := if code0 = "" then buildFetchCodeEditor or.jsonParse data else code0
    match or.fetchCall code with
    | .thrown m => ⟨[("error", JValue.str m)], .error⟩
    | .ok resp => ⟨[("response", (or.json resp).getD resp)], .success⟩
  else if jEqStr aty nodeActionType.COMPUTATION then
    match or.call ("return (" ++ strOr2 (jlookup data nodeActionType.COMPUTATION)
        (jlookup data "Expression Code") ++ ")") with
    | .thrown m => ⟨[("error", JValue.str m)], .error⟩
    | .ok v => ⟨[("result", v)], .success⟩
  else if jEqStr aty nodeActionType.MANUAL_TRIGGER ||
      jEqStr aty nodeActionType.SCHEDULE_TRIGGER then
    ⟨[("trigger", aty)], .success⟩
  else
    ⟨[("result", JValue.str "No executable action")], .success⟩

/-- The older run loop: `for (const [index, node] of order.entries())`,
`durationMs = 3 + (index % 7)`, no muted check. -/
def editorEntriesAux (or : JsOracle) (startedAt : Nat) (nodes : List WFNode) :
    List ONode → Nat → (List ExecEntry × Bool)
  | [], _ => ([], false)
  | node :: rest, idx =>
    let config := configOf nodes node.id
    let found := (byId nodes node.id).isSome
    let res :=
      if found then executeNodeEditor or config
      else ⟨[("error", JValue.str "Node not found")], ExecStatus.error⟩
    let entry : ExecEntry :=
      ⟨"entry-" ++ node.id ++ "-" ++ toString startedAt, node.id, node.label,
        config, res.output, 3 + (idx % 7), res.status.toEntry⟩
    let r := editorEntriesAux or startedAt nodes rest (idx + 1)
    (entry :: r.1, (res.status = ExecStatus.error) || r.2)

def executeWorkflowNowEditor (or : JsOracle) (startedAt : Nat)
    (nodes : List WFNode) (edges : List WFEdge) : (List ExecEntry × Bool) :=
  editorEntriesAux or startedAt nodes (getExecutionOrder nodes edges) 0

/-- The entry `executeWorkflowNow` records for one order element at a
given position: the synthetic skipped entry for muted nodes, otherwise
the dispatcher's (or the node-not-found) result. -/
def entryFor (or : JsOracle) (dur : Nat → Nat) (startedAt : Nat)
    (nodes : List WFNode) (node : ONode) (idx : Nat) : ExecEntry :=
  let config := configOf nodes node.id
  if mutedOf config then skippedEntry startedAt node config
  else
    let res :=
      if (byId nodes node.id).isSome then executeNode or config
      else ⟨[("error", JValue.str "Node not found")], ExecStatus.error⟩
    ⟨"entry-" ++ node.id ++ "-" ++ toString startedAt, node.id, node.label,
      config, res.output, dur idx, res.status.toEntry⟩

/-! ### Concrete example graph and oracle

The `[Trigger(manual) → A(muted) → B]` scenario of the specification,
and an inert oracle (every evaluation returns `null`, no console output,
nothing parses), used to instantiate theorems on closed inputs. -/

def scenTrigger : WFNode :=
  ⟨"t", some "T", [("isTrigger", JValue.bool true),
    ("actionType", JValue.str "manual_trigger"), ("userInput", JValue.obj [])]⟩

def scenMuted : WFNode :=
  ⟨"a", some "A", [("actionType", JValue.str "run_code"),
    ("muted", JValue.bool true),
    ("userInput", JValue.obj [("JAVASCRIPT_CODE", JValue.str "1")])]⟩

def scenComp : WFNode :=
  ⟨"b", some "B", [("actionType", JValue.str "computation"),
    ("userInput", JValue.obj [("EXPRESSION_CODE", JValue.str "2")])]⟩

def scenNodes : List WFNode := [scenTrigger, scenMuted, scenComp]

def scenEdges : List WFEdge := [⟨"e1", "t", "a"⟩, ⟨"e2", "a", "b"⟩]

def constOracle : JsOracle :=
  ⟨fun _ => EvalResult.ok JValue.null, fun _ => [],
    fun _ => EvalResult.ok JValue.null, fun _ => none, fun _ => none⟩

/-! ### The loop invariant of Kahn's algorithm

All seven clauses hold between iterations of the `while` loop:
ids placed in the order or waiting in the queue are distinct node ids;
the degree map holds, for every id, the number of valid in-edges from
sources not yet emitted; queued ids have all their in-edge sources
already emitted; every node id whose outside-in-degree is zero is
either emitted or queued; and every emitted target is preceded by each
of its in-edge sources. -/

structure KInv (nodes : List WFNode) (vE : List WFEdge)
    (q : List String) (deg : String → Int) (ord : List ONode) : Prop where
  nodup : ((ord.map ONode.id) ++ q).Nodup
  q_sub : ∀ i ∈ q, i ∈ nodeIds nodes
  ord_sub : ∀ i ∈ ord.map ONode.id, i ∈ nodeIds nodes
  deg_eq : ∀ i, deg i = (cnt vE (ord.map ONode.id) i : Int)
  q_zero : ∀ i ∈ q, cnt vE (ord.map ONode.id) i = 0
  zero_mem : ∀ i ∈ nodeIds nodes,
    cnt vE (ord.map ONode.id) i = 0 → i ∈ ord.map ONode.id ∨ i ∈ q
  topo : ∀ e ∈ vE, ∀ j : Nat, (ord.map ONode.id)[j]? = some e.target →
    ∃ k : Nat, k < j ∧ (ord.map ONode.id)[k]? = some e.source

/-! ### Generic counting and lookup lemmas -/

theorem countP_split (l : List WFEdge) (p q : WFEdge → Bool) :
    l.countP p =
      l.countP (fun a => p a && q a) + l.countP (fun a => p a && !q a) := by
  induction l with
  | nil => simp
  | cons a l ih =>
    simp only [List.countP_cons, ih]
    cases hp : p a <;> cases hq : q a <;> simp [hp, hq] <;> omega

theorem cnt_nil (vE : List WFEdge) (t : String) :
    (cnt vE [] t : Int) = indeg0 vE t := by
  unfold cnt indeg0
  rw [← List.countP_eq_length_filter]
  congr 1
  apply List.countP_congr
  intro e _
  simp

/-- Removing `i` from the "not yet ordered" side: counting in-edges whose
source is outside `O` splits into those outside `O ++ [i]` and those from
`i` itself (when `i ∉ O`). -/
theorem cnt_append (vE : List WFEdge) (O : List String) (i t : String)
    (hi : i ∉ O) :
    cnt vE O t = cnt vE (O ++ [i]) t + (succList vE i).count t := by
  have hcount : (succList vE i).count t =
      vE.countP (fun e => decide (e.target = t ∧ e.source ∉ O) &&
        decide (e.source = i)) := by
    unfold succList
    rw [List.count_eq_countP, List.countP_map, List.countP_filter]
    apply List.countP_congr
    intro e _
    by_cases h1 : e.target = t <;> by_cases h2 : e.source = i <;>
      simp [Function.comp, beq_iff_eq, h1, h2, hi]
  have hright : vE.countP (fun e => decide (e.target = t ∧ e.source ∉ O) &&
      !decide (e.source = i)) = cnt vE (O ++ [i]) t := by
    unfold cnt
    apply List.countP_congr
    intro e _
    by_cases h1 : e.target = t <;> by_cases h2 : e.source = i <;>
      simp [h1, h2]
  calc cnt vE O t
      = vE.countP (fun e => decide (e.target = t ∧ e.source ∉ O) &&
          decide (e.source = i)) +
        vE.countP (fun e => decide (e.target = t ∧ e.source ∉ O) &&
          !decide (e.source = i)) := countP_split ..
    _ = (succList vE i).count t + cnt vE (O ++ [i]) t := by rw [← hcount, hright]
    _ = cnt vE (O ++ [i]) t + (succList vE i).count t := Nat.add_comm ..

theorem cnt_eq_zero (vE : List WFEdge) (O : List String) (t : String) :
    cnt vE O t = 0 ↔ ∀ e ∈ vE, e.target = t → e.source ∈ O := by
  unfold cnt
  rw [List.countP_eq_zero]
  constructor
  · intro h e he ht
    by_contra hs
    exact h e he (by simp [ht, hs])
  · intro h e he
    simp only [decide_eq_true_eq, not_and, not_not]
    intro ht
    exact h e he ht

theorem byId_spec (nodes : List WFNode) (i : String) :
    (byId nodes i = none ∧ i ∉ nodeIds nodes) ∨
      (∃ n ∈ nodes, byId nodes i = some n ∧ n.id = i) := by
  have general : ∀ (l : List WFNode) (acc : Option WFNode),
      (l.foldl (fun acc n => if n.id = i then some n else acc) acc = acc ∧
        ∀ n ∈ l, n.id ≠ i) ∨
      (∃ n ∈ l,
        l.foldl (fun acc n => if n.id = i then some n else acc) acc = some n ∧
        n.id = i) := by
    intro l
    induction l with
    | nil => intro acc; left; simp
    | cons m l ih =>
      intro acc
      by_cases hm : m.id = i
      · rcases ih (some m) with ⟨h1, h2⟩ | ⟨n, hn, h1, h2⟩
        · right
          refine ⟨m, by simp, ?_, hm⟩
          simp only [List.foldl_cons]
          rw [if_pos hm]
          exact h1
        · right
          refine ⟨n, by simp [hn], ?_, h2⟩
          simp only [List.foldl_cons]
          rw [if_pos hm]
          exact h1
      · rcases ih acc with ⟨h1, h2⟩ | ⟨n, hn, h1, h2⟩
        · left
          refine ⟨?_, ?_⟩
          · simp only [List.foldl_cons]
            rw [if_neg hm]
            exact h1
          · intro n hn
            rcases List.mem_cons.mp hn with rfl | hn
            · exact hm
            · exact h2 n hn
        · right
          refine ⟨n, by simp [hn], ?_, h2⟩
          simp only [List.foldl_cons]
          rw [if_neg hm]
          exact h1
  rcases general nodes none with ⟨h1, h2⟩ | ⟨n, hn, h1, h2⟩
  · left
    refine ⟨h1, ?_⟩
    intro hmem
    obtain ⟨n, hn, hni⟩ := List.mem_map.mp hmem
    exact h2 n hn hni
  · right
    exact ⟨n, hn, h1, h2⟩

theorem emit_of_mem {nodes : List WFNode} {i : String}
    (h : i ∈ nodeIds nodes) :
    ∃ lbl, emit nodes i = [⟨i, lbl⟩] := by
  rcases byId_spec nodes i with ⟨_, hno⟩ | ⟨n, _, hsome, hid⟩
  · exact absurd h hno
  · exact ⟨resolveLabel n, by simp [emit, hsome, hid]⟩

/-! ### Accessibility helpers -/

theorem acc_irrefl {α : Type} {r : α → α → Prop} {a : α}
    (h : Acc r a) : ¬ r a a := by
  induction h with
  | intro x _ ih =>
    intro hxx
    exact ih x hxx hxx

theorem acc_transGen {α : Type} {r : α → α → Prop} {a : α}
    (h : Acc r a) : Acc (Relation.TransGen r) a := by
  induction h with
  | intro x _ ih =>
    constructor
    intro y hy
    cases hy with
    | single h1 => exact ih y h1
    | tail hb h1 => exact (ih _ h1).inv hb

theorem acc_of_reflTransGen {α : Type} {r : α → α → Prop} {a b : α}
    (hab : Relation.ReflTransGen r a b) (hb : Acc r b) : Acc r a := by
  induction hab with
  | refl => exact hb
  | tail _ hstep ih => exact ih (hb.inv hstep)

theorem not_acc_of_cycle_reach {α : Type} {r : α → α → Prop} {m i : α}
    (hcyc : Relation.TransGen r m m) (hreach : Relation.ReflTransGen r m i) :
    ¬ Acc r i := by
  intro hi
  exact acc_irrefl (acc_transGen (acc_of_reflTransGen hreach hi)) hcyc

theorem exists_notAcc_pred {α : Type} {r : α → α → Prop} {x : α}
    (hx : ¬ Acc r x) : ∃ y, r y x ∧ ¬ Acc r y := by
  by_contra h
  push_neg at h
  exact hx (Acc.intro x fun y hy => by
    by_contra hny
    exact hny (h y hy))

/-- Effect of the inner `forEach` (decrement successors of the node just
emitted, enqueueing the ones that reach zero) on the invariant clauses.
`O'` is the order-id list including the just-emitted node; `L` is the
remaining suffix of its successor list. -/
theorem processSuccs_spec (nodes : List WFNode) (vE : List WFEdge)
    (O' : List String) :
    ∀ (L : List String) (deg : String → Int) (q : List String),
    (∀ x, deg x = (cnt vE O' x : Int) + (L.count x : Int)) →
    (∀ t ∈ L, t ∉ O') →
    (∀ t ∈ L, t ∈ nodeIds nodes) →
    ((O' ++ q).Nodup) →
    (∀ x ∈ q, x ∈ nodeIds nodes) →
    (∀ x ∈ q, cnt vE O' x = 0 ∧ L.count x = 0) →
    (∀ x ∈ nodeIds nodes, cnt vE O' x = 0 → L.count x = 0 → x ∈ O' ∨ x ∈ q) →
    (∀ x, (processSuccs L deg q).1 x = (cnt vE O' x : Int)) ∧
    ((O' ++ (processSuccs L deg q).2).Nodup) ∧
    (∀ x ∈ (processSuccs L deg q).2, x ∈ nodeIds nodes) ∧
    (∀ x ∈ (processSuccs L deg q).2, cnt vE O' x = 0) ∧
    (∀ x ∈ nodeIds nodes, cnt vE O' x = 0 →
      x ∈ O' ∨ x ∈ (processSuccs L deg q).2) := by
  intro L
  induction L with
  | nil =>
    intro deg q hdeg _ _ hnd hsub hqz hzm
    refine ⟨?_, hnd, hsub, ?_, ?_⟩
    · intro x
      simpa using hdeg x
    · intro x hx
      exact (hqz x hx).1
    · intro x hx hz
      exact hzm x hx hz (by simp)
  | cons t L'' ih =>
    intro deg q hdeg htO htN hnd hsub hqz hzm
    have hdt : deg t - 1 = (cnt vE O' t : Int) + (L''.count t : Int) := by
      have := hdeg t
      rw [List.count_cons_self] at this
      push_cast at this
      omega
    have hstep : processSuccs (t :: L'') deg q =
        processSuccs L'' (fun x => if x = t then deg t - 1 else deg x)
          (if deg t - 1 = 0 then q ++ [t] else q) := rfl
    by_cases hd : deg t - 1 = 0
    · -- `t` reaches in-degree zero and is enqueued
      have hsum : (cnt vE O' t : Int) + (L''.count t : Int) = 0 := by
        rw [← hdt]; exact hd
      have hcz : cnt vE O' t = 0 ∧ L''.count t = 0 := by
        constructor <;> omega
      have htq : t ∉ q := by
        intro htq
        have := (hqz t htq).2
        rw [List.count_cons_self] at this
        omega
      have htO' : t ∉ O' := htO t (by simp)
      rw [hstep, if_pos hd]
      apply ih
      · intro x
        by_cases hx : x = t
        · subst hx
          simpa using hdt
        · simp only [if_neg hx]
          have := hdeg x
          rwa [List.count_cons_of_ne hx] at this
      · intro u hu
        exact htO u (by simp [hu])
      · intro u hu
        exact htN u (by simp [hu])
      · rw [← List.append_assoc]
        rw [List.nodup_append]
        refine ⟨hnd, by simp, ?_⟩
        intro u hu
        rcases List.mem_append.mp hu with h | h
        · simp only [List.mem_singleton]
          intro he
          exact htO' (he ▸ h)
        · simp only [List.mem_singleton]
          intro he
          exact htq (he ▸ h)
      · intro x hx
        rcases List.mem_append.mp hx with h | h
        · exact hsub x h
        · rw [List.mem_singleton] at h
          exact h ▸ htN t (by simp)
      · intro x hx
        rcases List.mem_append.mp hx with h | h
        · have h1 := hqz x h
          have hle : L''.count x ≤ (t :: L'').count x := by
            rw [List.count_cons]; exact Nat.le_add_right _ _
          refine ⟨h1.1, ?_⟩
          omega
        · rw [List.mem_singleton] at h
          subst h
          exact hcz
      · intro x hx hz hc
        by_cases hxt : x = t
        · subst hxt
          right
          simp
        · have := hzm x hx hz (by
            rwa [List.count_cons_of_ne hxt])
          rcases this with h | h
          · exact Or.inl h
          · exact Or.inr (by simp [h])
    · -- `t` stays positive; queue unchanged
      rw [hstep, if_neg hd]
      apply ih
      · intro x
        by_cases hx : x = t
        · subst hx
          simpa using hdt
        · simp only [if_neg hx]
          have := hdeg x
          rwa [List.count_cons_of_ne hx] at this
      · intro u hu
        exact htO u (by simp [hu])
      · intro u hu
        exact htN u (by simp [hu])
      · exact hnd
      · exact hsub
      · intro x hx
        have h1 := hqz x hx
        have hle : L''.count x ≤ (t :: L'').count x := by
          rw [List.count_cons]; exact Nat.le_add_right _ _
        exact ⟨h1.1, by omega⟩
      · intro x hx hz hc
        by_cases hxt : x = t
        · rw [hxt] at hz hc
          exact absurd (by omega : deg t - 1 = 0) hd
        · exact hzm x hx hz (by
            rwa [List.count_cons_of_ne hxt])

/-- Membership in a successor list comes from a valid edge. -/
theorem mem_succList {vE : List WFEdge} {i t : String}
    (h : t ∈ succList vE i) : ∃ e ∈ vE, e.source = i ∧ e.target = t := by
  unfold succList at h
  obtain ⟨e, he, rfl⟩ := List.mem_map.mp h
  have := List.mem_filter.mp he
  exact ⟨e, this.1, by simpa using this.2, rfl⟩

/-- One iteration of the `while` loop preserves the invariant. -/
theorem kahn_step {nodes : List WFNode} {vE : List WFEdge}
    {i : String} {rest : List String} {deg : String → Int} {ord : List ONode}
    (hvT : ∀ e ∈ vE, e.target ∈ nodeIds nodes)
    (inv : KInv nodes vE (i :: rest) deg ord) :
    KInv nodes vE (processSuccs (succList vE i) deg rest).2
      (processSuccs (succList vE i) deg rest).1
      (ord ++ emit nodes i) := by
  have hiN : i ∈ nodeIds nodes := inv.q_sub i (by simp)
  obtain ⟨lbl, hemit⟩ := emit_of_mem hiN
  have hOid : (ord ++ emit nodes i).map ONode.id =
      ord.map ONode.id ++ [i] := by
    rw [hemit]; simp
  have hiO : i ∉ ord.map ONode.id := by
    intro hmem
    exact (List.nodup_append.mp inv.nodup).2.2 hmem (by simp)
  have hqzi : cnt vE (ord.map ONode.id) i = 0 := inv.q_zero i (by simp)
  have topo' : ∀ e ∈ vE, ∀ j : Nat,
      (ord.map ONode.id ++ [i])[j]? = some e.target →
      ∃ k : Nat, k < j ∧ (ord.map ONode.id ++ [i])[k]? = some e.source := by
    intro e he j hj
    by_cases hjl : j < (ord.map ONode.id).length
    · rw [List.getElem?_append_left hjl] at hj
      obtain ⟨k, hk, hgk⟩ := inv.topo e he j hj
      exact ⟨k, hk, by
        rw [List.getElem?_append_left (hk.trans hjl)]
        exact hgk⟩
    · push_neg at hjl
      rw [List.getElem?_append_right hjl] at hj
      obtain ⟨hlt, hval⟩ := List.getElem?_eq_some_iff.mp hj
      have hjlen : j = (ord.map ONode.id).length := by
        simp only [List.length_singleton] at hlt
        omega
      have htgt : e.target = i := by
        simpa using hval.symm
      have hsrc : e.source ∈ ord.map ONode.id :=
        (cnt_eq_zero vE _ i).mp hqzi e he htgt
      obtain ⟨k, hk, hgk⟩ := List.mem_iff_getElem.mp hsrc
      refine ⟨k, by omega, ?_⟩
      rw [List.getElem?_append_left hk, List.getElem?_eq_getElem hk, hgk]
  have post := processSuccs_spec nodes vE (ord.map ONode.id ++ [i])
    (succList vE i) deg rest
    (by
      intro x
      have h1 := inv.deg_eq x
      have h2 := cnt_append vE (ord.map ONode.id) i x hiO
      rw [h1, h2]
      push_cast
      ring)
    (by
      intro t ht
      obtain ⟨e, he, hs, htg⟩ := mem_succList ht
      intro hmem
      rcases List.mem_append.mp hmem with h | h
      · obtain ⟨k, hk, hgk⟩ := List.mem_iff_getElem.mp h
        obtain ⟨m, hm, hgm⟩ := inv.topo e he k
          (by rw [List.getElem?_eq_getElem hk, hgk, htg])
        apply hiO
        rw [hs] at hgm
        exact List.mem_iff_getElem?.mpr ⟨m, hgm⟩
      · rw [List.mem_singleton] at h
        subst h
        have := (cnt_eq_zero vE _ t).mp hqzi e he htg
        rw [hs] at this
        exact hiO this)
    (by
      intro t ht
      obtain ⟨e, he, _, htg⟩ := mem_succList ht
      exact htg ▸ hvT e he)
    (by
      rw [← List.append_cons]
      exact inv.nodup)
    (by
      intro x hx
      exact inv.q_sub x (by simp [hx]))
    (by
      intro x hx
      have h0 := inv.q_zero x (by simp [hx])
      have h2 := cnt_append vE (ord.map ONode.id) i x hiO
      constructor <;> omega)
    (by
      intro x hx hz hc
      have h2 := cnt_append vE (ord.map ONode.id) i x hiO
      have h0 : cnt vE (ord.map ONode.id) x = 0 := by omega
      rcases inv.zero_mem x hx h0 with h | h
      · exact Or.inl (by simp [h])
      · rcases List.mem_cons.mp h with rfl | h
        · exact Or.inl (by simp)
        · exact Or.inr h)
  obtain ⟨pdeg, pnd, psub, pqz, pzm⟩ := post
  constructor
  · rw [hOid]; exact pnd
  · exact psub
  · rw [hOid]
    intro x hx
    rcases List.mem_append.mp hx with h | h
    · exact inv.ord_sub x h
    · rw [List.mem_singleton] at h
      exact h ▸ hiN
  · rw [hOid]; exact pdeg
  · rw [hOid]; exact pqz
  · rw [hOid]; exact pzm
  · rw [hOid]; exact topo'

/-- The ids placed so far plus the queue never exceed the node count. -/
theorem kinv_length_le {nodes : List WFNode} {vE : List WFEdge}
    {q : List String} {deg : String → Int} {ord : List ONode}
    (inv : KInv nodes vE q deg ord) :
    ord.length + q.length ≤ nodes.length := by
  have hsub : (ord.map ONode.id ++ q) ⊆ nodeIds nodes := by
    intro x hx
    rcases List.mem_append.mp hx with h | h
    · exact inv.ord_sub x h
    · exact inv.q_sub x h
  have hle := (List.subperm_of_subset inv.nodup hsub).length_le
  simp only [List.length_append, List.length_map, nodeIds, List.length_map] at hle
  exact hle

/-- With enough fuel the loop always drains the queue, preserving the
invariant to the final state. -/
theorem kahn_run_spec {nodes : List WFNode} {vE : List WFEdge}
    (hvT : ∀ e ∈ vE, e.target ∈ nodeIds nodes) :
    ∀ (fuel : Nat) (q : List String) (deg : String → Int) (ord : List ONode),
    KInv nodes vE q deg ord →
    nodes.length + 1 ≤ fuel + ord.length →
    (kahnRun nodes vE fuel q deg ord).2.1 = [] ∧
    KInv nodes vE [] (kahnRun nodes vE fuel q deg ord).2.2
      (kahnRun nodes vE fuel q deg ord).1 := by
  intro fuel
  induction fuel with
  | zero =>
    intro q deg ord inv hfuel
    have := kinv_length_le inv
    omega
  | succ fuel ih =>
    intro q deg ord inv hfuel
    cases q with
    | nil => exact ⟨rfl, inv⟩
    | cons i rest =>
      have inv' := kahn_step hvT inv
      have hiN : i ∈ nodeIds nodes := inv.q_sub i (by simp)
      obtain ⟨lbl, hemit⟩ := emit_of_mem hiN
      have hlen : (ord ++ emit nodes i).length = ord.length + 1 := by
        rw [hemit]; simp
      have hstep : kahnRun nodes vE (fuel + 1) (i :: rest) deg ord =
          kahnRun nodes vE fuel (processSuccs (succList vE i) deg rest).2
            (processSuccs (succList vE i) deg rest).1
            (ord ++ emit nodes i) := rfl
      rw [hstep]
      exact ih _ _ _ inv' (by omega)

/-- The invariant holds at the start of the loop. -/
theorem kahn_init (nodes : List WFNode) (edges : List WFEdge)
    (HN : (nodeIds nodes).Nodup) :
    KInv nodes (validEdges nodes edges) (seedIds nodes edges)
      (indeg0 (validEdges nodes edges)) [] := by
  constructor
  · simp only [List.map_nil, List.nil_append]
    exact HN.sublist ((List.filter_sublist nodes).map WFNode.id)
  · intro i hi
    obtain ⟨n, hn, rfl⟩ := List.mem_map.mp hi
    exact List.mem_map_of_mem _ (List.mem_of_mem_filter hn)
  · intro i hi
    simp at hi
  · intro i
    simpa using (cnt_nil (validEdges nodes edges) i).symm
  · intro i hi
    obtain ⟨n, hn, rfl⟩ := List.mem_map.mp hi
    have hz := of_decide_eq_true (List.mem_filter.mp hn).2
    have := cnt_nil (validEdges nodes edges) n.id
    simp only [List.map_nil]
    omega
  · intro i hi hz
    obtain ⟨n, hn, rfl⟩ := List.mem_map.mp hi
    right
    refine List.mem_map_of_mem _ (List.mem_filter.mpr ⟨hn, ?_⟩)
    have := cnt_nil (validEdges nodes edges) n.id
    simp only [List.map_nil] at hz
    rw [decide_eq_true_eq]
    omega
  · intro e he j hj
    simp at hj

/-- Every id of the final order is accessible along incoming valid
edges (soundness of the emitted order). -/
theorem final_acc_of_mem {nodes : List WFNode} {vE : List WFEdge}
    {degF : String → Int} {ordF : List ONode}
    (inv : KInv nodes vE [] degF ordF) :
    ∀ i ∈ ordF.map ONode.id, Acc (edgeStep vE) i := by
  have main : ∀ j : Nat, ∀ i, (ordF.map ONode.id)[j]? = some i →
      Acc (edgeStep vE) i := by
    intro j
    induction j using Nat.strong_induction_on with
    | _ j ih =>
      intro i hj
      constructor
      intro y hy
      obtain ⟨e, he, hs, ht⟩ := hy
      obtain ⟨k, hk, hgk⟩ := inv.topo e he j (by rw [hj, ht])
      have := ih k hk e.source (by rw [hgk])
      exact hs ▸ this
  intro i hi
  obtain ⟨k, hk⟩ := List.mem_iff_getElem?.mp hi
  exact main k i hk

/-- Every accessible node id ends up in the final order (completeness
of the emitted order). -/
theorem final_mem_of_acc {nodes : List WFNode} {vE : List WFEdge}
    {degF : String → Int} {ordF : List ONode}
    (inv : KInv nodes vE [] degF ordF)
    (hvS : ∀ e ∈ vE, e.source ∈ nodeIds nodes) :
    ∀ i, Acc (edgeStep vE) i → i ∈ nodeIds nodes → i ∈ ordF.map ONode.id := by
  intro i hacc
  induction hacc with
  | intro x _ ih =>
    intro hxN
    have hz : cnt vE (ordF.map ONode.id) x = 0 := by
      rw [cnt_eq_zero]
      intro e he ht
      exact ih e.source ⟨e, he, rfl, ht⟩ (hvS e he)
    rcases inv.zero_mem x hxN hz with h | h
    · exact h
    · simp at h

/-- On the finite node set, a non-accessible id always has a cycle among
its transitive predecessors: following non-accessible predecessors must
repeat a node id. -/
theorem exists_cycle_of_not_acc {nodes : List WFNode} {vE : List WFEdge}
    (hvS : ∀ e ∈ vE, e.source ∈ nodeIds nodes)
    {i : String} (hiN : i ∈ nodeIds nodes)
    (hi : ¬ Acc (edgeStep vE) i) :
    ∃ m, Relation.TransGen (edgeStep vE) m m ∧
      Relation.ReflTransGen (edgeStep vE) m i := by
  classical
  choose F hF1 hF2 using
    fun (x : String) (hx : ¬ Acc (edgeStep vE) x) => exists_notAcc_pred hx
  let g : Nat → {x : String // ¬ Acc (edgeStep vE) x} := fun n =>
    Nat.rec ⟨i, hi⟩ (fun _ p => ⟨F p.1 p.2, hF2 p.1 p.2⟩) n
  have hg0 : (g 0).1 = i := rfl
  have hgstep : ∀ n, edgeStep vE (g (n + 1)).1 (g n).1 :=
    fun n => hF1 (g n).1 (g n).2
  have hgN : ∀ n, (g n).1 ∈ nodeIds nodes := by
    intro n
    cases n with
    | zero => exact hg0 ▸ hiN
    | succ m =>
      obtain ⟨e, he, hs, _⟩ := hgstep m
      exact hs ▸ hvS e he
  have hchain : ∀ d p : Nat,
      Relation.TransGen (edgeStep vE) (g (p + d + 1)).1 (g p).1 := by
    intro d
    induction d with
    | zero => intro p; exact Relation.TransGen.single (hgstep p)
    | succ d ih =>
      intro p
      exact Relation.TransGen.head (hgstep (p + d + 1)) (ih p)
  have hreach : ∀ u : Nat, Relation.ReflTransGen (edgeStep vE) (g u).1 i := by
    intro u
    cases u with
    | zero => exact hg0 ▸ Relation.ReflTransGen.refl
    | succ u =>
      have := hchain u 0
      rw [Nat.zero_add] at this
      exact hg0 ▸ this.to_reflTransGen
  have hcard : ((nodeIds nodes).toFinset).card <
      (Finset.univ : Finset (Fin ((nodeIds nodes).length + 1))).card := by
    have h1 := (nodeIds nodes).toFinset_card_le
    simp only [Finset.card_univ, Fintype.card_fin]
    omega
  obtain ⟨a, _, b, _, hab, heq⟩ :=
    Finset.exists_ne_map_eq_of_card_lt_of_maps_to hcard
      (f := fun (k : Fin ((nodeIds nodes).length + 1)) => (g k.1).1)
      (fun k _ => List.mem_toFinset.mpr (hgN k.1))
  have build : ∀ u v : Nat, u < v → (g u).1 = (g v).1 →
      ∃ m, Relation.TransGen (edgeStep vE) m m ∧
        Relation.ReflTransGen (edgeStep vE) m i := by
    intro u v huv hgeq
    have h1 : Relation.TransGen (edgeStep vE) (g v).1 (g u).1 := by
      have := hchain (v - u - 1) u
      rw [show u + (v - u - 1) + 1 = v by omega] at this
      exact this
    exact ⟨(g v).1, hgeq ▸ h1, hreach v⟩
  rcases lt_or_gt_of_ne hab with hlt | hgt
  · exact build a.1 b.1 hlt heq
  · exact build b.1 a.1 hgt heq.symm

/-- Valid edges have both endpoints among the node ids. -/
theorem validEdges_endpoints (nodes : List WFNode) (edges : List WFEdge) :
    ∀ e ∈ validEdges nodes edges,
      e.source ∈ nodeIds nodes ∧ e.target ∈ nodeIds nodes := by
  intro e he
  have h := List.mem_filter.mp he
  have hb := h.2
  rw [Bool.and_eq_true] at hb
  constructor
  · obtain ⟨n, hn, hid⟩ := List.any_eq_true.mp hb.1
    exact List.mem_map.mpr ⟨n, hn, of_decide_eq_true hid⟩
  · obtain ⟨n, hn, hid⟩ := List.any_eq_true.mp hb.2
    exact List.mem_map.mpr ⟨n, hn, of_decide_eq_true hid⟩

/-- Pushing onto a longer queue only defers the new enqueues. -/
theorem processSuccs_queue :
    ∀ (L : List String) (deg : String → Int) (q1 q2 : List String),
    processSuccs L deg (q1 ++ q2) =
      ((processSuccs L deg q2).1, q1 ++ (processSuccs L deg q2).2) := by
  intro L
  induction L with
  | nil => intro deg q1 q2; rfl
  | cons t L ih =>
    intro deg q1 q2
    show processSuccs L _ (if deg t - 1 = 0 then (q1 ++ q2) ++ [t] else q1 ++ q2) = _
    by_cases hd : deg t - 1 = 0
    · rw [if_pos hd, List.append_assoc, ih]
      show _ = ((processSuccs (t :: L) deg q2).1, q1 ++ (processSuccs (t :: L) deg q2).2)
      have : processSuccs (t :: L) deg q2 =
          processSuccs L (fun x => if x = t then deg t - 1 else deg x)
            (if deg t - 1 = 0 then q2 ++ [t] else q2) := rfl
      rw [this, if_pos hd]
    · rw [if_neg hd, ih]
      have : processSuccs (t :: L) deg q2 =
          processSuccs L (fun x => if x = t then deg t - 1 else deg x)
            (if deg t - 1 = 0 then q2 ++ [t] else q2) := rfl
      rw [this, if_neg hd]

/-- The loop only ever appends to the order it was given. -/
theorem kahnRun_ord_mono (nodes : List WFNode) (vE : List WFEdge) :
    ∀ (fuel : Nat) (q : List String) (deg : String → Int) (ord : List ONode),
    ∃ tail, (kahnRun nodes vE fuel q deg ord).1 = ord ++ tail := by
  intro fuel
  induction fuel with
  | zero => intro q deg ord; exact ⟨[], by simp [kahnRun]⟩
  | succ fuel ih =>
    intro q deg ord
    cases q with
    | nil => exact ⟨[], by simp [kahnRun]⟩
    | cons i rest =>
      obtain ⟨tail, htail⟩ := ih (processSuccs (succList vE i) deg rest).2
        (processSuccs (succList vE i) deg rest).1 (ord ++ emit nodes i)
      refine ⟨emit nodes i ++ tail, ?_⟩
      show (kahnRun nodes vE fuel (processSuccs (succList vE i) deg rest).2
        (processSuccs (succList vE i) deg rest).1 (ord ++ emit nodes i)).1 = _
      rw [htail, List.append_assoc]

/-- Processing an initial queue segment first emits exactly that segment:
the FIFO discipline appends newly enqueued ids behind the rest of the
queue. -/
theorem kahnRun_prefix (nodes : List WFNode) (vE : List WFEdge) :
    ∀ (q1 : List String) (fuel : Nat) (q2 : List String)
      (deg : String → Int) (ord : List ONode),
    q1.length ≤ fuel →
    ∃ q' deg', kahnRun nodes vE fuel (q1 ++ q2) deg ord =
      kahnRun nodes vE (fuel - q1.length) (q2 ++ q') deg'
        (ord ++ q1.flatMap (emit nodes)) := by
  intro q1
  induction q1 with
  | nil =>
    intro fuel q2 deg ord _
    exact ⟨[], deg, by simp⟩
  | cons i q1 ih =>
    intro fuel q2 deg ord hlen
    cases fuel with
    | zero => simp at hlen
    | succ fuel =>
      obtain ⟨q', deg', hrun⟩ := ih fuel (processSuccs (succList vE i) deg q2).2
        (processSuccs (succList vE i) deg q2).1 (ord ++ emit nodes i)
        (by simpa using Nat.le_of_succ_le_succ hlen)
      have hq2 : (processSuccs (succList vE i) deg q2).2 =
          q2 ++ (processSuccs (succList vE i) deg []).2 := by
        have h := processSuccs_queue (succList vE i) deg q2 []
        rw [List.append_nil] at h
        rw [h]
      refine ⟨(processSuccs (succList vE i) deg []).2 ++ q', deg', ?_⟩
      have hfuel : fuel + 1 - (i :: q1).length = fuel - q1.length := by
        simp [Nat.succ_sub_succ]
      rw [hfuel, List.flatMap_cons, ← List.append_assoc]
      calc kahnRun nodes vE (fuel + 1) ((i :: q1) ++ q2) deg ord
          = kahnRun nodes vE fuel
              (processSuccs (succList vE i) deg (q1 ++ q2)).2
              (processSuccs (succList vE i) deg (q1 ++ q2)).1
              (ord ++ emit nodes i) := rfl
        _ = kahnRun nodes vE fuel
              (q1 ++ (processSuccs (succList vE i) deg q2).2)
              (processSuccs (succList vE i) deg q2).1
              (ord ++ emit nodes i) := by
              rw [processSuccs_queue (succList vE i) deg q1 q2]
        _ = kahnRun nodes vE (fuel - q1.length)
              ((processSuccs (succList vE i) deg q2).2 ++ q') deg'
              ((ord ++ emit nodes i) ++ q1.flatMap (emit nodes)) := hrun
        _ = kahnRun nodes vE (fuel - q1.length)
              (q2 ++ ((processSuccs (succList vE i) deg []).2 ++ q')) deg'
              ((ord ++ emit nodes i) ++ q1.flatMap (emit nodes)) := by
              rw [hq2, List.append_assoc]
        _ = kahnRun nodes vE (fuel - q1.length)
              (q2 ++ (processSuccs (succList vE i) deg []).2 ++ q') deg'
              (ord ++ (emit nodes i ++ q1.flatMap (emit nodes))) := by
              rw [List.append_assoc, List.append_assoc]

/-- The ids of the emitted singletons for a list of known node ids. -/
theorem flatMap_emit_map_id (nodes : List WFNode) :
    ∀ (l : List String), (∀ i ∈ l, i ∈ nodeIds nodes) →
      ((l.flatMap (emit nodes)).map ONode.id) = l := by
  intro l
  induction l with
  | nil => intro _; simp
  | cons i l ih =>
    intro h
    obtain ⟨lbl, hemit⟩ := emit_of_mem (h i (by simp))
    rw [List.flatMap_cons, List.map_append, hemit, ih (fun j hj => h j (by simp [hj]))]
    rfl

/-- The final state of the algorithm, packaged: for a non-empty node
list, the order returned by `getExecutionOrder` is the order component of
a drained final state satisfying the invariant. -/
theorem getExecutionOrder_final (nodes : List WFNode) (edges : List WFEdge)
    (HN : (nodeIds nodes).Nodup) (hne : ¬ nodes.isEmpty) :
    ∃ degF, KInv nodes (validEdges nodes edges) [] degF
      (getExecutionOrder nodes edges) := by
  have hvT : ∀ e ∈ validEdges nodes edges, e.target ∈ nodeIds nodes :=
    fun e he => (validEdges_endpoints nodes edges e he).2
  have hrun := kahn_run_spec hvT (nodes.length + edges.length + 1)
    (seedIds nodes edges) (indeg0 (validEdges nodes edges)) []
    (kahn_init nodes edges HN) (by simp)
  refine ⟨(kahnRun nodes (validEdges nodes edges)
    (nodes.length + edges.length + 1) (seedIds nodes edges)
    (indeg0 (validEdges nodes edges)) []).2.2, ?_⟩
  have : getExecutionOrder nodes edges =
      (kahnRun nodes (validEdges nodes edges)
        (nodes.length + edges.length + 1) (seedIds nodes edges)
        (indeg0 (validEdges nodes edges)) []).1 := by
    unfold getExecutionOrder
    rw [if_neg hne]
  rw [this]
  exact hrun.2

/-- Membership characterisation: a node id is emitted iff it is
accessible along incoming valid edges. -/
theorem getExecutionOrder_mem_iff (nodes : List WFNode) (edges : List WFEdge)
    (HN : (nodeIds nodes).Nodup) :
    ∀ i ∈ nodeIds nodes,
      (i ∈ (getExecutionOrder nodes edges).map ONode.id ↔
        Acc (edgeStep (validEdges nodes edges)) i) := by
  intro i hi
  have hne : ¬ nodes.isEmpty := by
    cases nodes with
    | nil => simp [nodeIds] at hi
    | cons n l => simp
  obtain ⟨degF, inv⟩ := getExecutionOrder_final nodes edges HN hne
  constructor
  · intro hmem
    exact final_acc_of_mem inv i hmem
  · intro hacc
    exact final_mem_of_acc inv
      (fun e he => (validEdges_endpoints nodes edges e he).1) i hacc hi

/-- A relation with no related pairs admits no transitive cycle. -/
theorem transGen_irrefl_of_empty {α : Type} {r : α → α → Prop}
    (hr : ∀ a b, ¬ r a b) : ∀ i, ¬ Relation.TransGen r i i := by
  intro i h
  cases h with
  | single h1 => exact hr _ _ h1
  | tail _ h1 => exact hr _ _ h1

theorem edgeStep_empty (a b : String) : ¬ edgeStep [] a b := by
  rintro ⟨e, he, -⟩
  simp at he

theorem seedIds_length_le (nodes : List WFNode) (edges : List WFEdge) :
    (seedIds nodes edges).length ≤ nodes.length := by
  unfold seedIds
  rw [List.length_map]
  exact List.length_filter_le _ _

theorem seedIds_subset (nodes : List WFNode) (edges : List WFEdge) :
    ∀ i ∈ seedIds nodes edges, i ∈ nodeIds nodes := by
  intro i hi
  obtain ⟨n, hn, rfl⟩ := List.mem_map.mp hi
  exact List.mem_map_of_mem _ (List.mem_of_mem_filter hn)

/-- **C1.** For every graph whose valid-edge relation is acyclic and
whose node ids are unique (a stated data-model invariant),
`getExecutionOrder` returns each node exactly once (its id list is a
permutation of the node-id list); every node appears strictly after
every node with a valid edge into it; the first emitted block is exactly
the zero-in-degree nodes in original node-list order (the FIFO seed,
the only tie-break); and an empty node list yields an empty order. -/
theorem getExecutionOrder_acyclic_complete
    (nodes : List WFNode) (edges : List WFEdge)
    (hnd : (nodeIds nodes).Nodup)
    (hacy : ∀ i, ¬ Relation.TransGen (edgeStep (validEdges nodes edges)) i i) :
    ((getExecutionOrder nodes edges).map ONode.id).Perm (nodeIds nodes) ∧
    (∀ e ∈ validEdges nodes edges, ∀ j : Nat,
      ((getExecutionOrder nodes edges).map ONode.id)[j]? = some e.target →
      ∃ k : Nat, k < j ∧
        ((getExecutionOrder nodes edges).map ONode.id)[k]? = some e.source) ∧
    (((getExecutionOrder nodes edges).take
        (seedIds nodes edges).length).map ONode.id = seedIds nodes edges) ∧
    (∀ es : List WFEdge, getExecutionOrder [] es = []) := by
  have hempty : ∀ es : List WFEdge, getExecutionOrder [] es = [] := by
    intro es; rfl
  by_cases hne : nodes.isEmpty
  · have hnil : nodes = [] := List.isEmpty_iff.mp hne
    subst hnil
    refine ⟨by simp [hempty, nodeIds], ?_, ?_, hempty⟩
    · intro e he
      simp [validEdges, hasNodeId] at he
    · simp [hempty, seedIds]
  · obtain ⟨degF, inv⟩ := getExecutionOrder_final nodes edges hnd hne
    have hacc : ∀ i ∈ nodeIds nodes, Acc (edgeStep (validEdges nodes edges)) i := by
      intro i hi
      by_contra hna
      obtain ⟨m, hm, -⟩ := exists_cycle_of_not_acc
        (fun e he => (validEdges_endpoints nodes edges e he).1) hi hna
      exact hacy m hm
    refine ⟨?_, inv.topo, ?_, hempty⟩
    · have hnd1 : ((getExecutionOrder nodes edges).map ONode.id).Nodup := by
        have := inv.nodup
        simpa using this
      rw [List.perm_ext_iff_of_nodup hnd1 hnd]
      intro a
      constructor
      · intro ha
        exact inv.ord_sub a ha
      · intro ha
        exact final_mem_of_acc inv
          (fun e he => (validEdges_endpoints nodes edges e he).1)
          a (hacc a ha) ha
    · have hle : (seedIds nodes edges).length ≤
          nodes.length + edges.length + 1 := by
        have := seedIds_length_le nodes edges
        omega
      obtain ⟨q', deg', heq⟩ := kahnRun_prefix nodes (validEdges nodes edges)
        (seedIds nodes edges) (nodes.length + edges.length + 1) []
        (indeg0 (validEdges nodes edges)) [] hle
      rw [List.append_nil] at heq
      obtain ⟨tail, htail⟩ := kahnRun_ord_mono nodes (validEdges nodes edges)
        (nodes.length + edges.length + 1 - (seedIds nodes edges).length)
        ([] ++ q') deg' ([] ++ (seedIds nodes edges).flatMap (emit nodes))
      have h0 : getExecutionOrder nodes edges =
          (kahnRun nodes (validEdges nodes edges)
            (nodes.length + edges.length + 1) (seedIds nodes edges)
            (indeg0 (validEdges nodes edges)) []).1 := by
        unfold getExecutionOrder
        rw [if_neg hne]
      have hform : getExecutionOrder nodes edges =
          (seedIds nodes edges).flatMap (emit nodes) ++ tail := by
        rw [h0, heq, htail]
        simp
      have hmap : (((seedIds nodes edges).flatMap (emit nodes)).map ONode.id)
          = seedIds nodes edges :=
        flatMap_emit_map_id nodes (seedIds nodes edges)
          (seedIds_subset nodes edges)
      have hflen : ((seedIds nodes edges).flatMap (emit nodes)).length =
          (seedIds nodes edges).length := by
        have h := congrArg List.length hmap
        rwa [List.length_map] at h
      rw [hform, ← hflen, List.take_left, hmap]

/-- Concrete instantiation of `getExecutionOrder_acyclic_complete` on the
one-node, zero-edge graph, discharging both hypotheses. -/
theorem getExecutionOrder_acyclic_complete_witness :
    ((getExecutionOrder [⟨"a", some "A", []⟩] []).map ONode.id).Perm
      (nodeIds [⟨"a", some "A", []⟩]) ∧
    (∀ e ∈ validEdges [⟨"a", some "A", []⟩] [], ∀ j : Nat,
      ((getExecutionOrder [⟨"a", some "A", []⟩] []).map ONode.id)[j]? = some e.target →
      ∃ k : Nat, k < j ∧
        ((getExecutionOrder [⟨"a", some "A", []⟩] []).map ONode.id)[k]? = some e.source) ∧
    (((getExecutionOrder [⟨"a", some "A", []⟩] []).take
        (seedIds [⟨"a", some "A", []⟩] []).length).map ONode.id =
      seedIds [⟨"a", some "A", []⟩] []) ∧
    (∀ es : List WFEdge, getExecutionOrder [] es = []) :=
  getExecutionOrder_acyclic_complete [⟨"a", some "A", []⟩] []
    (by simp [nodeIds])
    (by
      have hv : validEdges [⟨"a", some "A", []⟩] ([] : List WFEdge) = [] := rfl
      rw [hv]
      exact transGen_irrefl_of_empty edgeStep_empty)

/-- **C2.** For every graph (with unique node ids), the order omits
exactly the nodes that sit on a cycle of the valid-edge relation or
transitively depend on one; all other nodes are included.  (The embedded
`getExecutionOrder` is a total function: no error is raised on cyclic
input.) -/
theorem getExecutionOrder_cycle_exclusion
    (nodes : List WFNode) (edges : List WFEdge)
    (hnd : (nodeIds nodes).Nodup) :
    ∀ n ∈ nodes,
      (n.id ∉ (getExecutionOrder nodes edges).map ONode.id ↔
        ∃ m, Relation.TransGen (edgeStep (validEdges nodes edges)) m m ∧
          Relation.ReflTransGen (edgeStep (validEdges nodes edges)) m n.id) := by
  intro n hn
  have hiN : n.id ∈ nodeIds nodes := List.mem_map_of_mem _ hn
  have hmem := getExecutionOrder_mem_iff nodes edges hnd n.id hiN
  constructor
  · intro hout
    have hna : ¬ Acc (edgeStep (validEdges nodes edges)) n.id := by
      intro hacc
      exact hout (hmem.mpr hacc)
    exact exists_cycle_of_not_acc
      (fun e he => (validEdges_endpoints nodes edges e he).1) hiN hna
  · rintro ⟨m, hm, hreach⟩ hmemO
    exact not_acc_of_cycle_reach hm hreach (hmem.mp hmemO)

/-- Concrete instantiation of `getExecutionOrder_cycle_exclusion` on the
one-node, zero-edge graph, discharging the id-uniqueness hypothesis. -/
theorem getExecutionOrder_cycle_exclusion_witness :
    ("a" ∉ (getExecutionOrder [⟨"a", some "A", []⟩] []).map ONode.id ↔
      ∃ m, Relation.TransGen (edgeStep (validEdges [⟨"a", some "A", []⟩] [])) m m ∧
        Relation.ReflTransGen (edgeStep (validEdges [⟨"a", some "A", []⟩] [])) m "a") :=
  getExecutionOrder_cycle_exclusion [⟨"a", some "A", []⟩] [] (by simp [nodeIds])
    ⟨"a", some "A", []⟩ (by simp)


/-! ## Claims about the action dispatcher -/

/-- **C3.** The dispatcher never lets an exception escape: whenever the
dispatched evaluation throws, the result is `{error: String(error)}`
with status `error`; and every `error`-status result has exactly that
output shape (the dispatcher is a total function, so nothing propagates
to the caller). -/
theorem executeNode_error_boundary (or : JsOracle)
    (nodeData : List (String × JValue)) :
    (∀ m, dispatchOutcome or nodeData = some (EvalResult.thrown m) →
      executeNode or nodeData = ⟨[("error", JValue.str m)], ExecStatus.error⟩) ∧
    ((executeNode or nodeData).status = ExecStatus.error →
      ∃ m, (executeNode or nodeData).output = [("error", JValue.str m)]) := by
  unfold executeNode dispatchOutcome
  by_cases h1 : jEqStr (actionTypeOf nodeData) nodeActionType.RUN_CODE = true
  · simp only [h1, if_true]
    cases hc : or.call (runCodeOf nodeData (userInputOf nodeData)) with
    | ok v =>
      refine ⟨?_, ?_⟩
      · intro m hm
        cases hm
      · intro herr
        simp at herr
    | thrown m =>
      exact ⟨fun m' hm => by cases hm; rfl, fun _ => ⟨m, rfl⟩⟩
  · rw [if_neg h1, if_neg h1]
    by_cases h2 : jEqStr (actionTypeOf nodeData) nodeActionType.API_CALL = true
    · simp only [h2, if_true]
      cases hc : or.fetchCall (apiDispatchCode or.jsonParse nodeData) with
      | ok v =>
        refine ⟨?_, ?_⟩
        · intro m hm
          cases hm
        · intro herr
          simp at herr
      | thrown m =>
        exact ⟨fun m' hm => by cases hm; rfl, fun _ => ⟨m, rfl⟩⟩
    · rw [if_neg h2, if_neg h2]
      by_cases h3 : jEqStr (actionTypeOf nodeData) nodeActionType.COMPUTATION = true
      · simp only [h3, if_true]
        cases hc : or.call
            ("return (" ++ computationExprOf nodeData (userInputOf nodeData) ++ ")") with
        | ok v =>
          refine ⟨?_, ?_⟩
          · intro m hm
            cases hm
          · intro herr
            simp at herr
        | thrown m =>
          exact ⟨fun m' hm => by cases hm; rfl, fun _ => ⟨m, rfl⟩⟩
      · rw [if_neg h3, if_neg h3]
        by_cases h4 : (jEqStr (actionTypeOf nodeData) nodeActionType.MANUAL_TRIGGER ||
            jEqStr (actionTypeOf nodeData) nodeActionType.SCHEDULE_TRIGGER) = true
        · simp only [h4, if_true]
          refine ⟨?_, ?_⟩
          · intro m hm
            cases hm
          · intro herr
            simp at herr
        · rw [if_neg h4]
          refine ⟨?_, ?_⟩
          · intro m hm
            cases hm
          · intro herr
            simp at herr

/-- Concrete instantiation of `executeNode_error_boundary`: a `RunCode`
node whose script throws, with the hypotheses discharged by `rfl`. -/
theorem executeNode_error_boundary_witness :
    executeNode
      ⟨fun _ => EvalResult.thrown "Error: boom", fun _ => [],
        fun _ => EvalResult.ok JValue.null, fun _ => none, fun _ => none⟩
      [("actionType", JValue.str "run_code"),
        ("userInput", JValue.obj [("JAVASCRIPT_CODE", JValue.str "x")])] =
      ⟨[("error", JValue.str "Error: boom")], ExecStatus.error⟩ ∧
    (executeNode
      ⟨fun _ => EvalResult.thrown "Error: boom", fun _ => [],
        fun _ => EvalResult.ok JValue.null, fun _ => none, fun _ => none⟩
      [("actionType", JValue.str "run_code"),
        ("userInput", JValue.obj [("JAVASCRIPT_CODE", JValue.str "x")])]).status
        = ExecStatus.error :=
  ⟨(executeNode_error_boundary
      ⟨fun _ => EvalResult.thrown "Error: boom", fun _ => [],
        fun _ => EvalResult.ok JValue.null, fun _ => none, fun _ => none⟩
      [("actionType", JValue.str "run_code"),
        ("userInput", JValue.obj [("JAVASCRIPT_CODE", JValue.str "x")])]).1
      "Error: boom" rfl, by
    rw [(executeNode_error_boundary
      ⟨fun _ => EvalResult.thrown "Error: boom", fun _ => [],
        fun _ => EvalResult.ok JValue.null, fun _ => none, fun _ => none⟩
      [("actionType", JValue.str "run_code"),
        ("userInput", JValue.obj [("JAVASCRIPT_CODE", JValue.str "x")])]).1
      "Error: boom" rfl]⟩

/-- **C4** (evaluation at the failing input).  For an `ApiCall` node
with `METHOD = 'GET'`, a non-empty `BODY` and no stored code:
`generateExecutableCode` honours the GET rule and emits no `body`
property, but the dispatcher's own fallback (`apiDispatchCode`, the
code `executeNode` evaluates) reads `BODY` and emits `body: "hello"`.
The third conjunct shows the dispatcher evaluates exactly that
string. -/
theorem apiCall_get_body_bug :
    generateExecutableCode (fun _ => none) nodeActionType.API_CALL
      [("URL", JValue.str "https://x.test"), ("METHOD", JValue.str "GET"),
        ("BODY", JValue.str "hello")] =
      "fetch(\"https://x.test\", \x7b method: \"GET\", headers: \x7b\x7d \x7d)" ∧
    apiDispatchCode (fun _ => none)
      [("actionType", JValue.str "api_call"),
        ("userInput", JValue.obj [("URL", JValue.str "https://x.test"),
          ("METHOD", JValue.str "GET"), ("BODY", JValue.str "hello")])] =
      "fetch(\"https://x.test\", \x7b method: \"GET\", headers: \x7b\x7d, body: \"hello\" \x7d)" ∧
    (∀ or : JsOracle, or.jsonParse = (fun _ => none) →
      dispatchOutcome or
        [("actionType", JValue.str "api_call"),
          ("userInput", JValue.obj [("URL", JValue.str "https://x.test"),
            ("METHOD", JValue.str "GET"), ("BODY", JValue.str "hello")])] =
        some (or.fetchCall
          "fetch(\"https://x.test\", \x7b method: \"GET\", headers: \x7b\x7d, body: \"hello\" \x7d)")) := by
  have h2 : apiDispatchCode (fun _ => none)
      [("actionType", JValue.str "api_call"),
        ("userInput", JValue.obj [("URL", JValue.str "https://x.test"),
          ("METHOD", JValue.str "GET"), ("BODY", JValue.str "hello")])] =
      "fetch(\"https://x.test\", \x7b method: \"GET\", headers: \x7b\x7d, body: \"hello\" \x7d)" := by
    simp [apiDispatchCode, buildFetchCodeFromInput, userInputOf, strOr1, undef,
      jlookup, List.lookup, jsToString, jStringify, jsonQuote, jsonEscapeChar,
      nodeActionType.API_CALL, String.join, String.singleton]
    try rfl
  refine ⟨?_, h2, ?_⟩
  · simp [generateExecutableCode, strOr1, undef, jlookup, List.lookup, jsToString,
      jStringify, jsonQuote, jsonEscapeChar, nodeActionType.API_CALL,
      nodeActionType.RUN_CODE, String.join, String.singleton]
    try rfl
  · intro or hp
    unfold dispatchOutcome
    rw [hp, h2]
    rfl


/-! ## Claims about the full-workflow run -/

theorem runEntriesAux_length (or : JsOracle) (dur : Nat → Nat) (startedAt : Nat)
    (nodes : List WFNode) :
    ∀ (order : List ONode) (idx : Nat),
      (runEntriesAux or dur startedAt nodes order idx).1.length = order.length := by
  intro order
  induction order with
  | nil => intro idx; rfl
  | cons node rest ih =>
    intro idx
    by_cases hm : mutedOf (configOf nodes node.id) = true
    · simp [runEntriesAux, hm, ih]
    · simp [runEntriesAux, hm, ih]

theorem runEntriesAux_getElem (or : JsOracle) (dur : Nat → Nat) (startedAt : Nat)
    (nodes : List WFNode) :
    ∀ (order : List ONode) (idx k : Nat) (node : ONode),
      order[k]? = some node →
      (runEntriesAux or dur startedAt nodes order idx).1[k]? =
        some (entryFor or dur startedAt nodes node (idx + k)) := by
  intro order
  induction order with
  | nil =>
    intro idx k node hk
    simp at hk
  | cons hd rest ih =>
    intro idx k node hk
    cases k with
    | zero =>
      rw [List.getElem?_cons_zero] at hk
      cases hk
      by_cases hm : mutedOf (configOf nodes hd.id) = true
      · simp [runEntriesAux, entryFor, hm]
      · simp [runEntriesAux, entryFor, hm]
    | succ k =>
      rw [List.getElem?_cons_succ] at hk
      have := ih (idx + 1) k node hk
      have harith : idx + 1 + k = idx + (k + 1) := by omega
      rw [harith] at this
      by_cases hm : mutedOf (configOf nodes hd.id) = true
      · simpa [runEntriesAux, hm] using this
      · simpa [runEntriesAux, hm] using this

theorem runEntriesAux_dispatched (or : JsOracle) (dur : Nat → Nat) (startedAt : Nat)
    (nodes : List WFNode) :
    ∀ (order : List ONode) (idx : Nat),
      (runEntriesAux or dur startedAt nodes order idx).2.2 =
        (order.filter (fun node => (byId nodes node.id).isSome &&
          !mutedOf (configOf nodes node.id))).map ONode.id := by
  intro order
  induction order with
  | nil => intro idx; rfl
  | cons node rest ih =>
    intro idx
    by_cases hm : mutedOf (configOf nodes node.id) = true
    · simp [runEntriesAux, hm, ih]
    · by_cases hf : (byId nodes node.id).isSome = true
      · simp [runEntriesAux, hm, hf, ih]
      · simp [runEntriesAux, hm, hf, ih]

theorem runEntriesAux_hasError (or : JsOracle) (dur : Nat → Nat) (startedAt : Nat)
    (nodes : List WFNode) :
    ∀ (order : List ONode) (idx : Nat),
      ((runEntriesAux or dur startedAt nodes order idx).2.1 = true ↔
        ∃ e ∈ (runEntriesAux or dur startedAt nodes order idx).1,
          e.status = EntryStatus.error) := by
  intro order
  induction order with
  | nil =>
    intro idx
    simp [runEntriesAux]
  | cons node rest ih =>
    intro idx
    by_cases hm : mutedOf (configOf nodes node.id) = true
    · simp only [runEntriesAux, hm, if_true]
      rw [List.exists_mem_cons_iff]
      constructor
      · intro h
        exact Or.inr ((ih (idx + 1)).mp h)
      · rintro (h | h)
        · simp [skippedEntry] at h
        · exact (ih (idx + 1)).mpr h
    · simp only [runEntriesAux, hm, Bool.false_eq_true, if_false]
      rw [List.exists_mem_cons_iff]
      constructor
      · intro h
        rcases Bool.or_eq_true_iff.mp h with h | h
        · left
          have : (if (byId nodes node.id).isSome = true
              then executeNode or (configOf nodes node.id)
              else ⟨[("error", JValue.str "Node not found")], ExecStatus.error⟩).status
              = ExecStatus.error := of_decide_eq_true h
          simp only [ExecStatus.toEntry]
          rw [this]
        · exact Or.inr ((ih (idx + 1)).mp h)
      · rintro (h | h)
        · apply Bool.or_eq_true_iff.mpr
          left
          apply decide_eq_true
          revert h
          cases hres : (if (byId nodes node.id).isSome = true
              then executeNode or (configOf nodes node.id)
              else ⟨[("error", JValue.str "Node not found")], ExecStatus.error⟩).status
          · intro h
            simp [ExecStatus.toEntry, hres] at h
          · intro _
            rfl
        · exact Bool.or_eq_true_iff.mpr (Or.inr ((ih (idx + 1)).mpr h))

/-- **C5.** During a full run, every node of the order whose config has
`muted = true` yields the synthetic
`{skipped: true, reason: "Node is disabled"}` entry with `durationMs = 0`
and status `skipped`, and its id is never handed to the dispatcher; the
run continues (one entry per order element).  The final conjunct is the
`[Trigger(manual) → A(muted) → B]` scenario: exactly 3 entries, A's is
the synthetic skipped entry, B's carries B's own dispatcher result. -/
theorem executeWorkflowNow_skips_muted (or : JsOracle) (dur : Nat → Nat)
    (startedAt : Nat) (nodes : List WFNode) (edges : List WFEdge) :
    (∀ (k : Nat) (node : ONode),
      (getExecutionOrder nodes edges)[k]? = some node →
      mutedOf (configOf nodes node.id) = true →
      (executeWorkflowNowData or dur startedAt nodes edges).1[k]? =
        some (skippedEntry startedAt node (configOf nodes node.id)) ∧
      node.id ∉ (executeWorkflowNowData or dur startedAt nodes edges).2.2) ∧
    ((executeWorkflowNowData or dur startedAt nodes edges).1.length =
      (getExecutionOrder nodes edges).length) ∧
    (∀ (or2 : JsOracle) (dur2 : Nat → Nat) (st2 : Nat),
      (executeWorkflowNowData or2 dur2 st2 scenNodes scenEdges).1.length = 3 ∧
      (executeWorkflowNowData or2 dur2 st2 scenNodes scenEdges).1[1]? =
        some (skippedEntry st2 ⟨"a", "A"⟩ scenMuted.data) ∧
      (executeWorkflowNowData or2 dur2 st2 scenNodes scenEdges).1[2]? =
        some ⟨"entry-b-" ++ toString st2, "b", "B", scenComp.data,
          (executeNode or2 scenComp.data).output, dur2 2,
          (executeNode or2 scenComp.data).status.toEntry⟩) := by
  refine ⟨?_, ?_, ?_⟩
  · intro k node hk hmut
    constructor
    · have h := runEntriesAux_getElem or dur startedAt nodes
        (getExecutionOrder nodes edges) 0 k node hk
      unfold executeWorkflowNowData
      rw [h]
      simp [entryFor, hmut]
    · intro hmem
      rw [executeWorkflowNowData, runEntriesAux_dispatched] at hmem
      obtain ⟨node2, hn2, hid⟩ := List.mem_map.mp hmem
      have hcond := List.mem_filter.mp hn2
      rw [Bool.and_eq_true] at hcond
      have := hcond.2.2
      rw [hid, hmut] at this
      simp at this
  · exact runEntriesAux_length or dur startedAt nodes (getExecutionOrder nodes edges) 0
  · intro or2 dur2 st2
    refine ⟨?_, ?_, ?_⟩
    · rfl
    · rfl
    · rfl

/-- Concrete instantiation of `executeWorkflowNow_skips_muted` at the
scenario graph and the inert oracle, discharging the per-index
hypotheses by `rfl`. -/
theorem executeWorkflowNow_skips_muted_witness :
    (executeWorkflowNowData constOracle (fun _ => 0) 7 scenNodes scenEdges).1[1]? =
      some (skippedEntry 7 ⟨"a", "A"⟩ (configOf scenNodes "a")) ∧
    ("a" : String) ∉ (executeWorkflowNowData constOracle (fun _ => 0) 7 scenNodes scenEdges).2.2 :=
  (executeWorkflowNow_skips_muted constOracle (fun _ => 0) 7 scenNodes scenEdges).1
    1 ⟨"a", "A"⟩ rfl rfl

/-- **C6.** A run dispatches every found, non-muted node of the order
(errors are non-fatal: one entry per order element, and the dispatched
ids are exactly the found non-muted ones), and the stored execution's
status is `error` iff some entry has status `error`. -/
theorem executeWorkflowNow_error_aggregation (or : JsOracle) (dur : Nat → Nat)
    (startedAt totalDur : Nat) (nodes : List WFNode) (edges : List WFEdge)
    (s : EngineState) :
    ((executeWorkflowNowData or dur startedAt nodes edges).1.length =
      (getExecutionOrder nodes edges).length) ∧
    ((executeWorkflowNowData or dur startedAt nodes edges).2.2 =
      ((getExecutionOrder nodes edges).filter
        (fun node => (byId nodes node.id).isSome &&
          !mutedOf (configOf nodes node.id))).map ONode.id) ∧
    ((executeWorkflowNowData or dur startedAt nodes edges).2.1 = true ↔
      ∃ e ∈ (executeWorkflowNowData or dur startedAt nodes edges).1,
        e.status = EntryStatus.error) ∧
    (¬ (getExecutionOrder nodes edges).isEmpty = true →
      ∃ ex, (executeWorkflowNow or dur startedAt totalDur nodes edges s).execution =
          some ex ∧
        ex.entries = (executeWorkflowNowData or dur startedAt nodes edges).1 ∧
        (ex.status = ExecStatus.error ↔
          ∃ e ∈ ex.entries, e.status = EntryStatus.error)) := by
  refine ⟨runEntriesAux_length or dur startedAt nodes _ 0,
    runEntriesAux_dispatched or dur startedAt nodes _ 0,
    runEntriesAux_hasError or dur startedAt nodes _ 0, ?_⟩
  intro hne
  unfold executeWorkflowNow
  rw [if_neg hne]
  by_cases hflag : (executeWorkflowNowData or dur startedAt nodes edges).2.1 = true
  · rw [if_pos hflag]
    refine ⟨_, rfl, rfl, ?_⟩
    simp only [hflag, if_true]
    constructor
    · intro _
      exact (runEntriesAux_hasError or dur startedAt nodes _ 0).mp hflag
    · intro _
      trivial
  · rw [if_neg hflag]
    refine ⟨_, rfl, rfl, ?_⟩
    have hflag2 : (executeWorkflowNowData or dur startedAt nodes edges).2.1 = false :=
      Bool.eq_false_iff.mpr hflag
    simp only [hflag2, Bool.false_eq_true, if_false]
    constructor
    · intro h
      cases h
    · intro hex
      exact absurd ((runEntriesAux_hasError or dur startedAt nodes _ 0).mpr hex) hflag

/-- Concrete instantiation of `executeWorkflowNow_error_aggregation` at
the scenario graph, discharging the non-empty-order hypothesis. -/
theorem executeWorkflowNow_error_aggregation_witness :
    ∃ ex, (executeWorkflowNow constOracle (fun _ => 0) 7 11 scenNodes scenEdges
        ⟨none, none, none, false⟩).execution = some ex ∧
      ex.entries = (executeWorkflowNowData constOracle (fun _ => 0) 7 scenNodes scenEdges).1 ∧
      (ex.status = ExecStatus.error ↔
        ∃ e ∈ ex.entries, e.status = EntryStatus.error) :=
  (executeWorkflowNow_error_aggregation constOracle (fun _ => 0) 7 11 scenNodes
    scenEdges ⟨none, none, none, false⟩).2.2.2 (by decide)


/-! ## Claim about the trigger-validation path -/

/-- **C7.** Without any `isTrigger = true` node (in particular with no
nodes at all), `runWorkflow` surfaces the validation error
`'Trigger node is required'`, records no execution (the recorder's
current execution and selected entry stay unset), and arms no
schedule — whatever state it started from. -/
theorem runWorkflow_no_trigger (or : JsOracle) (dur : Nat → Nat)
    (startedAt totalDur firstRunMs : Nat) (nodes : List WFNode)
    (edges : List WFEdge) (s : EngineState)
    (h : ∀ n ∈ nodes, isTriggerNodeData n = false) :
    runWorkflow or dur startedAt totalDur firstRunMs nodes edges s =
      ⟨none, none, some ("error", "Trigger node is required"), false⟩ := by
  unfold runWorkflow
  have hany : nodes.any isTriggerNodeData = false := by
    rw [List.any_eq_false]
    intro n hn
    rw [h n hn]
    simp
  by_cases horder : (getExecutionOrder nodes edges).isEmpty = true
  · rw [if_pos horder]
    rfl
  · rw [if_neg horder, hany]
    rfl

/-- Concrete instantiation of `runWorkflow_no_trigger` on the empty
graph, starting from a state with a stale notification and an armed
schedule. -/
theorem runWorkflow_no_trigger_witness :
    runWorkflow constOracle (fun _ => 0) 7 11 5000 [] []
      ⟨none, none, some ("success", "x"), true⟩ =
      ⟨none, none, some ("error", "Trigger node is required"), false⟩ :=
  runWorkflow_no_trigger constOracle (fun _ => 0) 7 11 5000 [] []
    ⟨none, none, some ("success", "x"), true⟩ (by simp)

/-! ## Claim about the schedule re-entrancy guard -/

theorem schedApply_preserves (st : SchedGuardState) (ev : SchedEvent)
    (h1 : st.isExecuting = true ↔ st.runsInFlight = 1)
    (h2 : st.runsInFlight ≤ 1) :
    ((schedApply st ev).isExecuting = true ↔ (schedApply st ev).runsInFlight = 1) ∧
    (schedApply st ev).runsInFlight ≤ 1 := by
  cases ev with
  | tick =>
    unfold schedApply runScheduledTick
    cases hex : st.isExecuting with
    | false =>
      have h0 : st.runsInFlight = 0 := by
        by_cases hone : st.runsInFlight = 1
        · rw [h1.mpr hone] at hex
          cases hex
        · omega
      simp [hex, h0]
    | true =>
      exact ⟨h1, h2⟩
  | finish =>
    unfold schedApply
    by_cases h0 : st.runsInFlight = 0
    · rw [if_pos h0]
      exact ⟨h1, h2⟩
    · rw [if_neg h0]
      have hone : st.runsInFlight = 1 := by omega
      simp [hone]

/-- **C9.** From the idle state, along any sequence of timer ticks and
run completions: at most one run is ever in flight, and a tick arriving
while a run is executing leaves the guard state exactly unchanged and
starts no run (`(s, false)`) — dropped, not queued, so it cannot re-fire
later. -/
theorem schedule_fire_and_skip :
    ∀ events : List SchedEvent,
      (schedRun events).runsInFlight ≤ 1 ∧
      ((schedRun events).isExecuting = true →
        runScheduledTick (schedRun events) = ((schedRun events), false)) := by
  have inv : ∀ (l : List SchedEvent) (st : SchedGuardState),
      (st.isExecuting = true ↔ st.runsInFlight = 1) → st.runsInFlight ≤ 1 →
      ((l.foldl schedApply st).isExecuting = true ↔
        (l.foldl schedApply st).runsInFlight = 1) ∧
      (l.foldl schedApply st).runsInFlight ≤ 1 := by
    intro l
    induction l with
    | nil => intro st h1 h2; exact ⟨h1, h2⟩
    | cons ev rest ih =>
      intro st h1 h2
      rw [List.foldl_cons]
      obtain ⟨g1, g2⟩ := schedApply_preserves st ev h1 h2
      exact ih (schedApply st ev) g1 g2
  intro events
  obtain ⟨h1, h2⟩ := inv events ⟨false, 0⟩ (by simp) (by simp)
  refine ⟨h2, ?_⟩
  intro hex
  unfold runScheduledTick
  rw [if_pos hex]

/-- Concrete instantiation of `schedule_fire_and_skip` after one tick
(a run is executing), discharging the executing hypothesis. -/
theorem schedule_fire_and_skip_witness :
    (schedRun [SchedEvent.tick]).runsInFlight ≤ 1 ∧
    runScheduledTick (schedRun [SchedEvent.tick]) =
      ((schedRun [SchedEvent.tick]), false) :=
  ⟨(schedule_fire_and_skip [SchedEvent.tick]).1,
    (schedule_fire_and_skip [SchedEvent.tick]).2 rfl⟩

/-! ## Claim about JSON import validation -/

/-- **C8.** If any node of the imported batch fails `isValidNodeData`,
the entire import is rejected: a single validation error notification,
zero nodes added, zero edges added — never a partial subset. -/
theorem handleImport_rejects_invalid_batch (now : Nat) (parsed : JValue)
    (h : ∃ v ∈ nodesToImport parsed, isValidNodeData v = false) :
    handleImport now parsed =
      ⟨[], [], some ("error",
        "Invalid node format. Required: label, data.label, data.actionType, data.userInput")⟩ := by
  unfold handleImport
  obtain ⟨v, hv, hbad⟩ := h
  have hmem : v ∈ (nodesToImport parsed).filter (fun n => !isValidNodeData n) :=
    List.mem_filter.mpr ⟨hv, by rw [hbad]; rfl⟩
  have hlen : ((nodesToImport parsed).filter (fun n => !isValidNodeData n)).length ≠ 0 := by
    intro h0
    rw [List.length_eq_zero] at h0
    rw [h0] at hmem
    cases hmem
  rw [if_pos hlen]

/-- Concrete instantiation of `handleImport_rejects_invalid_batch` on a
3-node batch whose second node is missing `data.actionType`. -/
theorem handleImport_rejects_invalid_batch_witness :
    handleImport 5 (JValue.obj [("nodes", JValue.arr
      [JValue.obj [("label", JValue.str "n1"), ("data", JValue.obj
        [("label", JValue.str "x"), ("actionType", JValue.str "run_code"),
          ("userInput", JValue.obj [])])],
       JValue.obj [("label", JValue.str "n2"), ("data", JValue.obj
        [("label", JValue.str "x"), ("userInput", JValue.obj [])])],
       JValue.obj [("label", JValue.str "n3"), ("data", JValue.obj
        [("label", JValue.str "x"), ("actionType", JValue.str "run_code"),
          ("userInput", JValue.obj [])])]]), ("edges", JValue.arr [])]) =
      ⟨[], [], some ("error",
        "Invalid node format. Required: label, data.label, data.actionType, data.userInput")⟩ :=
  handleImport_rejects_invalid_batch 5 _
    ⟨JValue.obj [("label", JValue.str "n2"), ("data", JValue.obj
      [("label", JValue.str "x"), ("userInput", JValue.obj [])])],
      by simp [nodesToImport, jlookup, List.lookup], rfl⟩

/-! ## Claim about the older run loop's synthetic durations -/

theorem editorEntriesAux_length (or : JsOracle) (startedAt : Nat)
    (nodes : List WFNode) :
    ∀ (order : List ONode) (idx : Nat),
      (editorEntriesAux or startedAt nodes order idx).1.length = order.length := by
  intro order
  induction order with
  | nil => intro idx; rfl
  | cons node rest ih =>
    intro idx
    simp [editorEntriesAux, ih]

theorem editorEntriesAux_durations (or : JsOracle) (startedAt : Nat)
    (nodes : List WFNode) :
    ∀ (order : List ONode) (idx : Nat),
      ((editorEntriesAux or startedAt nodes order idx).1).map ExecEntry.durationMs =
        (List.range' idx order.length).map (fun i => 3 + (i % 7)) := by
  intro order
  induction order with
  | nil => intro idx; rfl
  | cons node rest ih =>
    intro idx
    simp only [editorEntriesAux, List.length_cons, List.range'_succ, List.map_cons]
    rw [ih (idx + 1)]

/-- **C10.** In the older `WorkFlowEditor` revision's full run, every
entry's `durationMs` equals `3 + (index % 7)` for its position in the
run order — a synthetic value independent of the oracle (i.e. of what
the node actually did). -/
theorem editor_synthetic_durations (or : JsOracle) (startedAt : Nat)
    (nodes : List WFNode) (edges : List WFEdge) :
    ((executeWorkflowNowEditor or startedAt nodes edges).1).map ExecEntry.durationMs =
      (List.range ((executeWorkflowNowEditor or startedAt nodes edges).1).length).map
        (fun i => 3 + (i % 7)) := by
  have hlen : ((executeWorkflowNowEditor or startedAt nodes edges).1).length =
      (getExecutionOrder nodes edges).length :=
    editorEntriesAux_length or startedAt nodes (getExecutionOrder nodes edges) 0
  rw [hlen, List.range_eq_range']
  exact editorEntriesAux_durations or startedAt nodes (getExecutionOrder nodes edges) 0

end WorkflowDash
